import Mathlib

/-!
# Key Vault access-policy schema: expand / flatten

A shallow embedding of `azurerm/internal/services/keyvault/access_policy_schema.go`
and of the library functions it calls, followed by theorems about the
decode (`expandAccessPolicies`) and encode (`flattenAccessPolicies`) directions
and about the per-element validators declared by the four `schema*Permissions`
functions.

Conventions of the embedding:

* a Go `interface{}` value is a `Value` (its dynamic type is the constructor);
* a Go `map[string]interface{}` is a function `String → Option Value`
  (`none` = key absent); indexing an absent key yields the nil interface;
* a failing type assertion `v.(T)` is `Except.error Panic.interfaceConversion`;
* a Go pointer `*T` is `Option T` (`none` = nil pointer);
* a Go `string` is a Lean `String`; where the Go code looks at bytes, the
  UTF-8 encoding of the string is used.
-/

/-! ## Dynamic values -/

/-- A Go `interface{}` value, as far as the configuration layer produces them. -/
inductive Value where
  | nil : Value
  | bool (b : Bool) : Value
  | int (n : Int) : Value
  | str (s : String) : Value
  | list (l : List Value) : Value
  | map (m : String → Option Value) : Value

/-- A Go `map[string]interface{}`. -/
abbrev RawMap := String → Option Value

/-- The run-time panics this code can raise. -/
inductive Panic where
  | interfaceConversion : Panic
  deriving DecidableEq, Repr

namespace RawMap

/-- The value of `make(map[string]interface{})`. -/
def empty : RawMap := fun _ => none

/-- The map after the assignment `m[k] = v`. -/
def set (m : RawMap) (k : String) (v : Value) : RawMap :=
  fun k' => if k' = k then some v else m k'

/-- The index expression `m[k]`: the nil interface when the key is absent. -/
def index (m : RawMap) (k : String) : Value :=
  match m k with
  | some v => v
  | none => Value.nil

end RawMap

namespace Value

/-- The type assertion `v.(string)`. -/
def assertString : Value → Except Panic String
  | str s => .ok s
  | _ => .error Panic.interfaceConversion

/-- The type assertion `v.([]interface{})`. -/
def assertSlice : Value → Except Panic (List Value)
  | list l => .ok l
  | _ => .error Panic.interfaceConversion

/-- The type assertion `v.(map[string]interface{})`. -/
def assertMap : Value → Except Panic RawMap
  | map m => .ok m
  | _ => .error Panic.interfaceConversion

/-- The comparison `v != ""` of an interface value with the string constant `""`:
false exactly when `v` holds the string `""`. -/
def neEmptyString : Value → Bool
  | str s => s != ""
  | _ => true

end Value

/-! ## Bytes and `encoding/hex` -/

/-- A Go `byte`. -/
abbrev Byte := Fin 256

/-- The bytes of a Go string: the UTF-8 encoding of its characters. -/
def stringBytes (s : String) : List Nat :=
  s.data.flatMap (fun c => (String.utf8EncodeChar c).map UInt8.toNat)

namespace hex

/-- The constant `hextable`. -/
def hextable : List Char := "0123456789abcdef".data

/-- Go `hex.fromHexChar`: the value of one hexadecimal digit, `none` when the
byte is not a digit. -/
def fromHexChar (c : Nat) : Option Nat :=
  if 48 ≤ c ∧ c ≤ 57 then some (c - 48)
  else if 97 ≤ c ∧ c ≤ 102 then some (c - 97 + 10)
  else if 65 ≤ c ∧ c ≤ 70 then some (c - 65 + 10)
  else none

/-- Go `hex.Decode`: the bytes decoded from `src`, `none` on an invalid digit or
an odd length. -/
def Decode : List Nat → Option (List Byte)
  | [] => some []
  | [_] => none
  | a :: b :: rest =>
    match fromHexChar a with
    | none => none
    | some hi =>
      match fromHexChar b with
      | none => none
      | some lo =>
        match Decode rest with
        | none => none
        | some dst => some (Fin.ofNat ((hi <<< 4) ||| lo) :: dst)

/-- Go `hex.Encode`: two lower-case digits per byte. -/
def Encode : List Byte → List Char
  | [] => []
  | v :: rest =>
    hextable.getD (v.val >>> 4) '0' :: hextable.getD (v.val &&& 0x0f) '0' :: Encode rest

end hex

/-! ## `github.com/satori/go.uuid` -/

namespace uuid

/-- Modelled from the spec: the type `uuid.UUID` of the vendored package
`github.com/satori/go.uuid`, an array of 16 bytes. -/
structure UUID where
  bytes : List Byte
  size : bytes.length = 16
  deriving DecidableEq

/-- Modelled from the spec: `uuid.Nil`, the nil UUID sentinel (all 16 bytes zero). -/
def Nil : UUID := ⟨List.replicate 16 0, rfl⟩

/-- The constant `byteGroups`: the digit counts of the five canonical groups. -/
def byteGroups : List Nat := [8, 4, 4, 4, 12]

/-- The constant `urnPrefix`, `"urn:uuid:"`. -/
def urnPrefix : List Nat := stringBytes "urn:uuid:"

/-- The loop of `decodeCanonical` over `byteGroups`: every group but the first
skips one dash, then decodes its digits. -/
def decodeCanonicalLoop : List Nat → Bool → List Nat → Option (List Byte)
  | [], _, _ => some []
  | byteGroup :: groups, first, src =>
    let src := if first then src else src.drop 1
    match hex.Decode (src.take byteGroup) with
    | none => none
    | some dst =>
      match decodeCanonicalLoop groups false (src.drop byteGroup) with
      | none => none
      | some rest => some (dst ++ rest)

/-- Modelled from the spec: `decodeCanonical`, the form
`6ba7b810-9dad-11d1-80b4-00c04fd430c8` (36 bytes). -/
def decodeCanonical (t : List Nat) : Option (List Byte) :=
  if t.getD 8 0 ≠ 45 ∨ t.getD 13 0 ≠ 45 ∨ t.getD 18 0 ≠ 45 ∨ t.getD 23 0 ≠ 45 then none
  else decodeCanonicalLoop byteGroups true t

/-- Modelled from the spec: `decodeHashLike`, the form
`6ba7b8109dad11d180b400c04fd430c8` (32 bytes). -/
def decodeHashLike (t : List Nat) : Option (List Byte) :=
  hex.Decode t

/-- Modelled from the spec: `decodePlain`, canonical or hash-like by length. -/
def decodePlain (t : List Nat) : Option (List Byte) :=
  if t.length = 32 then decodeHashLike t
  else if t.length = 36 then decodeCanonical t
  else none

/-- Modelled from the spec: `decodeBraced`, a plain form between `{` and `}`. -/
def decodeBraced (t : List Nat) : Option (List Byte) :=
  if t.getD 0 0 ≠ 123 ∨ t.getD (t.length - 1) 0 ≠ 125 then none
  else decodePlain ((t.take (t.length - 1)).drop 1)

/-- Modelled from the spec: `decodeURN`, a plain form after `urn:uuid:`. -/
def decodeURN (t : List Nat) : Option (List Byte) :=
  if t.take 9 ≠ urnPrefix then none
  else decodePlain (t.drop 9)

/-- Modelled from the spec: `UUID.UnmarshalText`, the parser behind "parse as
UUID". It accepts the four textual forms of the package (canonical, hash-like,
braced, URN), dispatching on the length of the text (32, 36, 38, 41 or 45
bytes), and fails on any other length. -/
def UnmarshalText (text : List Nat) : Option (List Byte) :=
  if text.length = 32 then decodeHashLike text
  else if text.length = 36 then decodeCanonical text
  else if text.length = 38 then decodeBraced text
  else if text.length = 41 ∨ text.length = 45 then decodeURN text
  else none

/-- Modelled from the spec: `uuid.FromString` of the vendored package
`github.com/satori/go.uuid`: the UUID parsed from the text, `none` when the
parse fails. -/
def FromString (input : String) : Option UUID :=
  match UnmarshalText (stringBytes input) with
  | none => none
  | some bs => if h : bs.length = 16 then some ⟨bs, h⟩ else none

/-- Modelled from the spec: `uuid.FromStringOrNil`: the parsed UUID, and the nil
UUID on a parse failure. -/
def FromStringOrNil (input : String) : UUID :=
  match FromString input with
  | some u => u
  | none => Nil

/-- Modelled from the spec: `UUID.String`, the canonical string form: lower-case
hexadecimal digits in groups of 8-4-4-4-12 separated by dashes. -/
def UUID.String (u : UUID) : String :=
  ⟨hex.Encode (u.bytes.take 4) ++ '-' ::
    (hex.Encode ((u.bytes.drop 4).take 2) ++ '-' ::
      (hex.Encode ((u.bytes.drop 6).take 2) ++ '-' ::
        (hex.Encode ((u.bytes.drop 8).take 2) ++ '-' ::
          hex.Encode (u.bytes.drop 10))))⟩

end uuid

/-! ## The typed model (`keyvault` SDK package) -/

namespace keyvault

/-- The SDK type `CertificatePermissions`, a named string type. -/
abbrev CertificatePermissions := String

/-- The SDK type `KeyPermissions`, a named string type. -/
abbrev KeyPermissions := String

/-- The SDK type `SecretPermissions`, a named string type. -/
abbrev SecretPermissions := String

/-- The SDK type `StoragePermissions`, a named string type. -/
abbrev StoragePermissions := String

/-- The SDK type `Permissions`, with the fields this file uses: four optional
permission sets. -/
structure Permissions where
  Keys : Option (List KeyPermissions)
  Secrets : Option (List SecretPermissions)
  Certificates : Option (List CertificatePermissions)
  Storage : Option (List StoragePermissions)
  deriving DecidableEq

/-- The SDK type `AccessPolicyEntry`, with the fields this file uses. -/
structure AccessPolicyEntry where
  TenantID : Option uuid.UUID
  ObjectID : Option String
  ApplicationID : Option uuid.UUID
  Permissions : Option Permissions
  deriving DecidableEq

end keyvault

/-! ## `access_policy_schema.go`: expand (decode) -/

/-- The loop shared by the four `expand*Permissions` functions: assert each
element to be a string and append it, converted, to `output`. -/
def expandPermissionsLoop : List Value → List String → Except Panic (List String)
  | [], output => .ok output
  | permission :: rest, output =>
    match permission.assertString with
    | .error e => .error e
    | .ok s => expandPermissionsLoop rest (output ++ [s])

/-- Source function `expandCertificatePermissions`. -/
def expandCertificatePermissions (input : List Value) :
    Except Panic (Option (List keyvault.CertificatePermissions)) :=
  match expandPermissionsLoop input [] with
  | .error e => .error e
  | .ok output => .ok (some output)

/-- Source function `expandKeyPermissions`. -/
def expandKeyPermissions (keyPermissionsRaw : List Value) :
    Except Panic (Option (List keyvault.KeyPermissions)) :=
  match expandPermissionsLoop keyPermissionsRaw [] with
  | .error e => .error e
  | .ok output => .ok (some output)

/-- Source function `expandSecretPermissions`. -/
def expandSecretPermissions (input : List Value) :
    Except Panic (Option (List keyvault.SecretPermissions)) :=
  match expandPermissionsLoop input [] with
  | .error e => .error e
  | .ok output => .ok (some output)

/-- Source function `expandStoragePermissions`. -/
def expandStoragePermissions (input : List Value) :
    Except Panic (Option (List keyvault.StoragePermissions)) :=
  match expandPermissionsLoop input [] with
  | .error e => .error e
  | .ok output => .ok (some output)

/-- The body of the loop of `expandAccessPolicies`: the typed entry built from
one element of the input, in the source's order of evaluation. -/
def expandAccessPolicy (policySet : Value) : Except Panic keyvault.AccessPolicyEntry := do
  let policyRaw ← policySet.assertMap
  let certificatePermissionsRaw ← (policyRaw.index "certificate_permissions").assertSlice
  let keyPermissionsRaw ← (policyRaw.index "key_permissions").assertSlice
  let secretPermissionsRaw ← (policyRaw.index "secret_permissions").assertSlice
  let storagePermissionsRaw ← (policyRaw.index "storage_permissions").assertSlice
  let certificates ← expandCertificatePermissions certificatePermissionsRaw
  let keys ← expandKeyPermissions keyPermissionsRaw
  let secrets ← expandSecretPermissions secretPermissionsRaw
  let storage ← expandStoragePermissions storagePermissionsRaw
  let policy : keyvault.AccessPolicyEntry :=
    { TenantID := none, ObjectID := none, ApplicationID := none,
      Permissions := some
        { Certificates := certificates, Keys := keys, Secrets := secrets, Storage := storage } }
  let tenantUUID := uuid.FromStringOrNil (← (policyRaw.index "tenant_id").assertString)
  let policy := { policy with TenantID := some tenantUUID }
  let objectUUID ← (policyRaw.index "object_id").assertString
  let policy := { policy with ObjectID := some objectUUID }
  let v := policyRaw.index "application_id"
  if v.neEmptyString then
    let applicationUUID := uuid.FromStringOrNil (← v.assertString)
    pure { policy with ApplicationID := some applicationUUID }
  else
    pure policy

/-- The loop of `expandAccessPolicies`: decode each element and append it to
`output`. -/
def expandAccessPoliciesLoop :
    List Value → List keyvault.AccessPolicyEntry → Except Panic (List keyvault.AccessPolicyEntry)
  | [], output => .ok output
  | policySet :: rest, output =>
    match expandAccessPolicy policySet with
    | .error e => .error e
    | .ok policy => expandAccessPoliciesLoop rest (output ++ [policy])

/-- Source function `expandAccessPolicies`: a pointer to the list of typed
entries, or a panic. -/
def expandAccessPolicies (input : List Value) :
    Except Panic (Option (List keyvault.AccessPolicyEntry)) :=
  match expandAccessPoliciesLoop input [] with
  | .error e => .error e
  | .ok output => .ok (some output)

/-! ## `access_policy_schema.go`: flatten (encode) -/

/-- The loop shared by the four `flatten*Permissions` functions: append each
token, converted to a plain string, to `output`. -/
def flattenPermissionsLoop : List String → List Value → List Value
  | [], output => output
  | permission :: rest, output => flattenPermissionsLoop rest (output ++ [Value.str permission])

/-- Source function `flattenCertificatePermissions`. -/
def flattenCertificatePermissions (input : Option (List keyvault.CertificatePermissions)) :
    List Value :=
  match input with
  | none => []
  | some l => flattenPermissionsLoop l []

/-- Source function `flattenKeyPermissions`. -/
def flattenKeyPermissions (input : Option (List keyvault.KeyPermissions)) : List Value :=
  match input with
  | none => []
  | some l => flattenPermissionsLoop l []

/-- Source function `flattenSecretPermissions`. -/
def flattenSecretPermissions (input : Option (List keyvault.SecretPermissions)) : List Value :=
  match input with
  | none => []
  | some l => flattenPermissionsLoop l []

/-- Source function `flattenStoragePermissions`. -/
def flattenStoragePermissions (input : Option (List keyvault.StoragePermissions)) :
    List Value :=
  match input with
  | none => []
  | some l => flattenPermissionsLoop l []

/-- The body of the loop of `flattenAccessPolicies`: the raw map built from one
typed entry. -/
def flattenAccessPolicy (policy : keyvault.AccessPolicyEntry) : RawMap :=
  let policyRaw := RawMap.empty
  let policyRaw :=
    match policy.TenantID with
    | some tenantId => policyRaw.set "tenant_id" (Value.str tenantId.String)
    | none => policyRaw
  let policyRaw :=
    match policy.ObjectID with
    | some objectId => policyRaw.set "object_id" (Value.str objectId)
    | none => policyRaw
  let policyRaw :=
    match policy.ApplicationID with
    | some appId => policyRaw.set "application_id" (Value.str appId.String)
    | none => policyRaw
  match policy.Permissions with
  | some permissions =>
    let certs := flattenCertificatePermissions permissions.Certificates
    let policyRaw := policyRaw.set "certificate_permissions" (Value.list certs)
    let keys := flattenKeyPermissions permissions.Keys
    let policyRaw := policyRaw.set "key_permissions" (Value.list keys)
    let secrets := flattenSecretPermissions permissions.Secrets
    let policyRaw := policyRaw.set "secret_permissions" (Value.list secrets)
    let storage := flattenStoragePermissions permissions.Storage
    policyRaw.set "storage_permissions" (Value.list storage)
  | none => policyRaw

/-- The loop of `flattenAccessPolicies`. -/
def flattenAccessPoliciesLoop : List keyvault.AccessPolicyEntry → List RawMap → List RawMap
  | [], result => result
  | policy :: rest, result => flattenAccessPoliciesLoop rest (result ++ [flattenAccessPolicy policy])

/-- Source function `flattenAccessPolicies`. -/
def flattenAccessPolicies (policies : Option (List keyvault.AccessPolicyEntry)) : List RawMap :=
  match policies with
  | none => []
  | some l => flattenAccessPoliciesLoop l []

/-! ## Permission constants of the `keyvault` SDK package -/

/-- Modelled from the spec: the SDK constant `keyvault.Backup`, the certificate token `backup`. -/
def keyvault.Backup : keyvault.CertificatePermissions := "backup"

/-- Modelled from the spec: the SDK constant `keyvault.Create`, the certificate token `create`. -/
def keyvault.Create : keyvault.CertificatePermissions := "create"

/-- Modelled from the spec: the SDK constant `keyvault.Delete`, the certificate token `delete`. -/
def keyvault.Delete : keyvault.CertificatePermissions := "delete"

/-- Modelled from the spec: the SDK constant `keyvault.Deleteissuers`, the certificate token `deleteissuers`. -/
def keyvault.Deleteissuers : keyvault.CertificatePermissions := "deleteissuers"

/-- Modelled from the spec: the SDK constant `keyvault.Get`, the certificate token `get`. -/
def keyvault.Get : keyvault.CertificatePermissions := "get"

/-- Modelled from the spec: the SDK constant `keyvault.Getissuers`, the certificate token `getissuers`. -/
def keyvault.Getissuers : keyvault.CertificatePermissions := "getissuers"

/-- Modelled from the spec: the SDK constant `keyvault.Import`, the certificate token `import`. -/
def keyvault.Import : keyvault.CertificatePermissions := "import"

/-- Modelled from the spec: the SDK constant `keyvault.List`, the certificate token `list`. -/
def keyvault.List : keyvault.CertificatePermissions := "list"

/-- Modelled from the spec: the SDK constant `keyvault.Listissuers`, the certificate token `listissuers`. -/
def keyvault.Listissuers : keyvault.CertificatePermissions := "listissuers"

/-- Modelled from the spec: the SDK constant `keyvault.Managecontacts`, the certificate token `managecontacts`. -/
def keyvault.Managecontacts : keyvault.CertificatePermissions := "managecontacts"

/-- Modelled from the spec: the SDK constant `keyvault.Manageissuers`, the certificate token `manageissuers`. -/
def keyvault.Manageissuers : keyvault.CertificatePermissions := "manageissuers"

/-- Modelled from the spec: the SDK constant `keyvault.Purge`, the certificate token `purge`. -/
def keyvault.Purge : keyvault.CertificatePermissions := "purge"

/-- Modelled from the spec: the SDK constant `keyvault.Recover`, the certificate token `recover`. -/
def keyvault.Recover : keyvault.CertificatePermissions := "recover"

/-- Modelled from the spec: the SDK constant `keyvault.Restore`, the certificate token `restore`. -/
def keyvault.Restore : keyvault.CertificatePermissions := "restore"

/-- Modelled from the spec: the SDK constant `keyvault.Setissuers`, the certificate token `setissuers`. -/
def keyvault.Setissuers : keyvault.CertificatePermissions := "setissuers"

/-- Modelled from the spec: the SDK constant `keyvault.Update`, the certificate token `update`. -/
def keyvault.Update : keyvault.CertificatePermissions := "update"

/-- Modelled from the spec: the SDK constant `keyvault.KeyPermissionsBackup`, the key token `backup`. -/
def keyvault.KeyPermissionsBackup : keyvault.KeyPermissions := "backup"

/-- Modelled from the spec: the SDK constant `keyvault.KeyPermissionsCreate`, the key token `create`. -/
def keyvault.KeyPermissionsCreate : keyvault.KeyPermissions := "create"

/-- Modelled from the spec: the SDK constant `keyvault.KeyPermissionsDecrypt`, the key token `decrypt`. -/
def keyvault.KeyPermissionsDecrypt : keyvault.KeyPermissions := "decrypt"

/-- Modelled from the spec: the SDK constant `keyvault.KeyPermissionsDelete`, the key token `delete`. -/
def keyvault.KeyPermissionsDelete : keyvault.KeyPermissions := "delete"

/-- Modelled from the spec: the SDK constant `keyvault.KeyPermissionsEncrypt`, the key token `encrypt`. -/
def keyvault.KeyPermissionsEncrypt : keyvault.KeyPermissions := "encrypt"

/-- Modelled from the spec: the SDK constant `keyvault.KeyPermissionsGet`, the key token `get`. -/
def keyvault.KeyPermissionsGet : keyvault.KeyPermissions := "get"

/-- Modelled from the spec: the SDK constant `keyvault.KeyPermissionsImport`, the key token `import`. -/
def keyvault.KeyPermissionsImport : keyvault.KeyPermissions := "import"

/-- Modelled from the spec: the SDK constant `keyvault.KeyPermissionsList`, the key token `list`. -/
def keyvault.KeyPermissionsList : keyvault.KeyPermissions := "list"

/-- Modelled from the spec: the SDK constant `keyvault.KeyPermissionsPurge`, the key token `purge`. -/
def keyvault.KeyPermissionsPurge : keyvault.KeyPermissions := "purge"

/-- Modelled from the spec: the SDK constant `keyvault.KeyPermissionsRecover`, the key token `recover`. -/
def keyvault.KeyPermissionsRecover : keyvault.KeyPermissions := "recover"

/-- Modelled from the spec: the SDK constant `keyvault.KeyPermissionsRestore`, the key token `restore`. -/
def keyvault.KeyPermissionsRestore : keyvault.KeyPermissions := "restore"

/-- Modelled from the spec: the SDK constant `keyvault.KeyPermissionsSign`, the key token `sign`. -/
def keyvault.KeyPermissionsSign : keyvault.KeyPermissions := "sign"

/-- Modelled from the spec: the SDK constant `keyvault.KeyPermissionsUnwrapKey`, the key token `unwrapkey`. -/
def keyvault.KeyPermissionsUnwrapKey : keyvault.KeyPermissions := "unwrapkey"

/-- Modelled from the spec: the SDK constant `keyvault.KeyPermissionsUpdate`, the key token `update`. -/
def keyvault.KeyPermissionsUpdate : keyvault.KeyPermissions := "update"

/-- Modelled from the spec: the SDK constant `keyvault.KeyPermissionsVerify`, the key token `verify`. -/
def keyvault.KeyPermissionsVerify : keyvault.KeyPermissions := "verify"

/-- Modelled from the spec: the SDK constant `keyvault.KeyPermissionsWrapKey`, the key token `wrapkey`. -/
def keyvault.KeyPermissionsWrapKey : keyvault.KeyPermissions := "wrapkey"

/-- Modelled from the spec: the SDK constant `keyvault.SecretPermissionsBackup`, the secret token `backup`. -/
def keyvault.SecretPermissionsBackup : keyvault.SecretPermissions := "backup"

/-- Modelled from the spec: the SDK constant `keyvault.SecretPermissionsDelete`, the secret token `delete`. -/
def keyvault.SecretPermissionsDelete : keyvault.SecretPermissions := "delete"

/-- Modelled from the spec: the SDK constant `keyvault.SecretPermissionsGet`, the secret token `get`. -/
def keyvault.SecretPermissionsGet : keyvault.SecretPermissions := "get"

/-- Modelled from the spec: the SDK constant `keyvault.SecretPermissionsList`, the secret token `list`. -/
def keyvault.SecretPermissionsList : keyvault.SecretPermissions := "list"

/-- Modelled from the spec: the SDK constant `keyvault.SecretPermissionsPurge`, the secret token `purge`. -/
def keyvault.SecretPermissionsPurge : keyvault.SecretPermissions := "purge"

/-- Modelled from the spec: the SDK constant `keyvault.SecretPermissionsRecover`, the secret token `recover`. -/
def keyvault.SecretPermissionsRecover : keyvault.SecretPermissions := "recover"

/-- Modelled from the spec: the SDK constant `keyvault.SecretPermissionsRestore`, the secret token `restore`. -/
def keyvault.SecretPermissionsRestore : keyvault.SecretPermissions := "restore"

/-- Modelled from the spec: the SDK constant `keyvault.SecretPermissionsSet`, the secret token `set`. -/
def keyvault.SecretPermissionsSet : keyvault.SecretPermissions := "set"

/-- Modelled from the spec: the SDK constant `keyvault.StoragePermissionsBackup`, the storage token `backup`. -/
def keyvault.StoragePermissionsBackup : keyvault.StoragePermissions := "backup"

/-- Modelled from the spec: the SDK constant `keyvault.StoragePermissionsDelete`, the storage token `delete`. -/
def keyvault.StoragePermissionsDelete : keyvault.StoragePermissions := "delete"

/-- Modelled from the spec: the SDK constant `keyvault.StoragePermissionsDeletesas`, the storage token `deletesas`. -/
def keyvault.StoragePermissionsDeletesas : keyvault.StoragePermissions := "deletesas"

/-- Modelled from the spec: the SDK constant `keyvault.StoragePermissionsGet`, the storage token `get`. -/
def keyvault.StoragePermissionsGet : keyvault.StoragePermissions := "get"

/-- Modelled from the spec: the SDK constant `keyvault.StoragePermissionsGetsas`, the storage token `getsas`. -/
def keyvault.StoragePermissionsGetsas : keyvault.StoragePermissions := "getsas"

/-- Modelled from the spec: the SDK constant `keyvault.StoragePermissionsList`, the storage token `list`. -/
def keyvault.StoragePermissionsList : keyvault.StoragePermissions := "list"

/-- Modelled from the spec: the SDK constant `keyvault.StoragePermissionsListsas`, the storage token `listsas`. -/
def keyvault.StoragePermissionsListsas : keyvault.StoragePermissions := "listsas"

/-- Modelled from the spec: the SDK constant `keyvault.StoragePermissionsPurge`, the storage token `purge`. -/
def keyvault.StoragePermissionsPurge : keyvault.StoragePermissions := "purge"

/-- Modelled from the spec: the SDK constant `keyvault.StoragePermissionsRecover`, the storage token `recover`. -/
def keyvault.StoragePermissionsRecover : keyvault.StoragePermissions := "recover"

/-- Modelled from the spec: the SDK constant `keyvault.StoragePermissionsRegeneratekey`, the storage token `regeneratekey`. -/
def keyvault.StoragePermissionsRegeneratekey : keyvault.StoragePermissions := "regeneratekey"

/-- Modelled from the spec: the SDK constant `keyvault.StoragePermissionsRestore`, the storage token `restore`. -/
def keyvault.StoragePermissionsRestore : keyvault.StoragePermissions := "restore"

/-- Modelled from the spec: the SDK constant `keyvault.StoragePermissionsSet`, the storage token `set`. -/
def keyvault.StoragePermissionsSet : keyvault.StoragePermissions := "set"

/-- Modelled from the spec: the SDK constant `keyvault.StoragePermissionsSetsas`, the storage token `setsas`. -/
def keyvault.StoragePermissionsSetsas : keyvault.StoragePermissions := "setsas"

/-- Modelled from the spec: the SDK constant `keyvault.StoragePermissionsUpdate`, the storage token `update`. -/
def keyvault.StoragePermissionsUpdate : keyvault.StoragePermissions := "update"

/-! ## `strings`, `helper/validation` and `helper/schema` -/

namespace strings

/-- Go `strings.ToLower`: the string with every character mapped by
`unicode.ToLower`, which is the parameter `toLower` (its case tables are not
part of this development). -/
def ToLower (toLower : Char → Char) (s : String) : String :=
  ⟨s.data.map toLower⟩

end strings

namespace validation

/-- The errors a `SchemaValidateFunc` built by `StringInSlice` reports. -/
inductive Error where
  | expectedString (k : String) : Error
  | expectedOneOf (k : String) (valid : List String) (v : String) : Error
  deriving DecidableEq

/-- The loop of `StringInSlice` over `valid`: `true` as soon as one element
equals `v`, or equals it after lower-casing both when `ignoreCase` is set. -/
def StringInSliceLoop (toLower : Char → Char) (ignoreCase : Bool) (v : String) :
    List String → Bool
  | [] => false
  | str :: rest =>
    if v == str || (ignoreCase && strings.ToLower toLower v == strings.ToLower toLower str) then
      true
    else StringInSliceLoop toLower ignoreCase v rest

/-- Modelled from the spec: `validation.StringInSlice` of the vendored package
`terraform-plugin-sdk/helper/validation`: the validator that reports no error
exactly when the value is a string matching one member of `valid`
(case-insensitively when `ignoreCase` is set). It returns the warnings and the
errors. -/
def StringInSlice (toLower : Char → Char) (valid : List String) (ignoreCase : Bool) :
    Value → String → List String × List Error :=
  fun i k =>
    match i with
    | Value.str v =>
      if StringInSliceLoop toLower ignoreCase v valid then ([], [])
      else ([], [Error.expectedOneOf k valid v])
    | _ => ([], [Error.expectedString k])

end validation

namespace schema

/-- The value types of `helper/schema` used by this file. -/
inductive ValueType where
  | TypeString : ValueType
  | TypeList : ValueType
  deriving DecidableEq

/-- The element schema of a list: `schema.Schema` as used for `Elem`, with its
type and validator (the diff-suppression function is not part of this
development). -/
structure ElemSchema where
  ValueType : ValueType
  ValidateFunc : Value → String → List String × List validation.Error

/-- The type `schema.Schema`, with the fields this file sets. -/
structure Schema where
  ValueType : ValueType
  Optional : Bool
  Elem : ElemSchema

end schema

/-! ## `access_policy_schema.go`: the four schemas -/

/-- Source function `schemaCertificatePermissions`. -/
def schemaCertificatePermissions (toLower : Char → Char) : schema.Schema :=
  { ValueType := schema.ValueType.TypeList
    Optional := true
    Elem :=
      { ValueType := schema.ValueType.TypeString
        ValidateFunc := validation.StringInSlice toLower
          [
          keyvault.Backup,
          keyvault.Create,
          keyvault.Delete,
          keyvault.Deleteissuers,
          keyvault.Get,
          keyvault.Getissuers,
          keyvault.Import,
          keyvault.List,
          keyvault.Listissuers,
          keyvault.Managecontacts,
          keyvault.Manageissuers,
          keyvault.Purge,
          keyvault.Recover,
          keyvault.Restore,
          keyvault.Setissuers,
          keyvault.Update
          ] true } }

/-- Source function `schemaKeyPermissions`. -/
def schemaKeyPermissions (toLower : Char → Char) : schema.Schema :=
  { ValueType := schema.ValueType.TypeList
    Optional := true
    Elem :=
      { ValueType := schema.ValueType.TypeString
        ValidateFunc := validation.StringInSlice toLower
          [
          keyvault.KeyPermissionsBackup,
          keyvault.KeyPermissionsCreate,
          keyvault.KeyPermissionsDecrypt,
          keyvault.KeyPermissionsDelete,
          keyvault.KeyPermissionsEncrypt,
          keyvault.KeyPermissionsGet,
          keyvault.KeyPermissionsImport,
          keyvault.KeyPermissionsList,
          keyvault.KeyPermissionsPurge,
          keyvault.KeyPermissionsRecover,
          keyvault.KeyPermissionsRestore,
          keyvault.KeyPermissionsSign,
          keyvault.KeyPermissionsUnwrapKey,
          keyvault.KeyPermissionsUpdate,
          keyvault.KeyPermissionsVerify,
          keyvault.KeyPermissionsWrapKey
          ] true } }

/-- Source function `schemaSecretPermissions`. -/
def schemaSecretPermissions (toLower : Char → Char) : schema.Schema :=
  { ValueType := schema.ValueType.TypeList
    Optional := true
    Elem :=
      { ValueType := schema.ValueType.TypeString
        ValidateFunc := validation.StringInSlice toLower
          [
          keyvault.SecretPermissionsBackup,
          keyvault.SecretPermissionsDelete,
          keyvault.SecretPermissionsGet,
          keyvault.SecretPermissionsList,
          keyvault.SecretPermissionsPurge,
          keyvault.SecretPermissionsRecover,
          keyvault.SecretPermissionsRestore,
          keyvault.SecretPermissionsSet
          ] true } }

/-- Source function `schemaStoragePermissions`. -/
def schemaStoragePermissions (toLower : Char → Char) : schema.Schema :=
  { ValueType := schema.ValueType.TypeList
    Optional := true
    Elem :=
      { ValueType := schema.ValueType.TypeString
        ValidateFunc := validation.StringInSlice toLower
          [
          keyvault.StoragePermissionsBackup,
          keyvault.StoragePermissionsDelete,
          keyvault.StoragePermissionsDeletesas,
          keyvault.StoragePermissionsGet,
          keyvault.StoragePermissionsGetsas,
          keyvault.StoragePermissionsList,
          keyvault.StoragePermissionsListsas,
          keyvault.StoragePermissionsPurge,
          keyvault.StoragePermissionsRecover,
          keyvault.StoragePermissionsRegeneratekey,
          keyvault.StoragePermissionsRestore,
          keyvault.StoragePermissionsSet,
          keyvault.StoragePermissionsSetsas,
          keyvault.StoragePermissionsUpdate
          ] true } }

/-! ## Vocabulary of the statements -/

namespace RawMap

/-- The map holding the listed key/value pairs (the first pair of a key wins). -/
def ofList (l : List (String × Value)) : RawMap := fun k => l.lookup k

/-- The map without the key `k`. -/
def erase (m : RawMap) (k : String) : RawMap :=
  fun k' => if k' = k then none else m k'

end RawMap

namespace Value

/-- The value holds a string. -/
def isString : Value → Bool
  | str _ => true
  | _ => false

/-- The value holds a list whose elements are all strings. -/
def isStringList : Value → Bool
  | list l => l.all isString
  | _ => false

/-- The string a value holds (the empty string when it holds none). -/
def getString : Value → String
  | str s => s
  | _ => ""

/-- The strings a list value holds. -/
def getStrings : Value → List String
  | list l => l.map getString
  | _ => []

/-- The entry of a raw map under a key, `none` when the key is absent. -/
def lookup (v : Value) (k : String) : Option Value :=
  match v with
  | map m => m k
  | _ => none

/-- The value of a field of a raw entry (the nil interface when absent). -/
def field (v : Value) (k : String) : Value :=
  match v with
  | map m => RawMap.index m k
  | _ => nil

/-- The raw entry with one field assigned. -/
def withField (v : Value) (k : String) (w : Value) : Value :=
  match v with
  | map m => map (RawMap.set m k w)
  | _ => v

/-- The five fields other than `application_id` are carried with the right types. -/
def wellTypedOtherFields (v : Value) : Bool :=
  match v with
  | map _ =>
    (v.field "tenant_id").isString && (v.field "object_id").isString &&
    (v.field "certificate_permissions").isStringList &&
    (v.field "key_permissions").isStringList &&
    (v.field "secret_permissions").isStringList &&
    (v.field "storage_permissions").isStringList
  | _ => false

/-- A structurally well-formed raw entry: a map carrying `tenant_id`, `object_id` and
`application_id` as strings and the four permission fields as lists of strings. -/
def wellTypedEntry (v : Value) : Bool :=
  v.wellTypedOtherFields && (v.field "application_id").isString

end Value

/-- The field names of a raw entry. -/
def entryKeys : List String :=
  ["tenant_id", "object_id", "application_id", "certificate_permissions", "key_permissions",
    "secret_permissions", "storage_permissions"]

/-- A raw entry of exactly the fixed shape: well typed, and no key besides the
fields of `entryKeys`. -/
def Value.exactEntry (v : Value) : Prop :=
  v.wellTypedEntry = true ∧ ∀ k, k ∉ entryKeys → v.lookup k = none

/-- The raw entry as the round trip is expected to give it back: without the
`application_id` key when that field is the empty string, unchanged otherwise. -/
def Value.dropEmptyApplicationId (v : Value) : Value :=
  match v with
  | Value.map m =>
    if (v.field "application_id").getString = "" then Value.map (RawMap.erase m "application_id")
    else v
  | _ => v

/-- A lower-case hexadecimal digit. -/
def isLowerHexDigit (c : Char) : Bool :=
  ('0' ≤ c && c ≤ '9') || ('a' ≤ c && c ≤ 'f')

/-- The canonical textual form of a UUID: 36 characters, lower-case hexadecimal
digits in groups of 8-4-4-4-12 separated by dashes. -/
def isCanonicalUUIDString (s : String) : Bool :=
  s.data.length == 36 &&
  (s.data.take 8).all isLowerHexDigit && s.data.getD 8 ' ' == '-' &&
  ((s.data.drop 9).take 4).all isLowerHexDigit && s.data.getD 13 ' ' == '-' &&
  ((s.data.drop 14).take 4).all isLowerHexDigit && s.data.getD 18 ' ' == '-' &&
  ((s.data.drop 19).take 4).all isLowerHexDigit && s.data.getD 23 ' ' == '-' &&
  (s.data.drop 24).all isLowerHexDigit

/-- The UUID strings of a raw entry are canonical: its `tenant_id`, and its
`application_id` unless that is empty. -/
def Value.canonicalIds (v : Value) : Bool :=
  isCanonicalUUIDString (v.field "tenant_id").getString &&
  ((v.field "application_id").getString == "" ||
    isCanonicalUUIDString (v.field "application_id").getString)

/-- The typed entry a well-formed raw entry stands for, field by field. -/
def typedOf (v : Value) : keyvault.AccessPolicyEntry :=
  { TenantID := some (uuid.FromStringOrNil (v.field "tenant_id").getString)
    ObjectID := some (v.field "object_id").getString
    ApplicationID :=
      if (v.field "application_id").getString = "" then none
      else some (uuid.FromStringOrNil (v.field "application_id").getString)
    Permissions := some
      { Certificates := some (v.field "certificate_permissions").getStrings
        Keys := some (v.field "key_permissions").getStrings
        Secrets := some (v.field "secret_permissions").getStrings
        Storage := some (v.field "storage_permissions").getStrings } }

/-- The raw entry with the given five fields and no `application_id` key. -/
def rawEntryWithoutApplicationId (tenant object : String)
    (certificates keys secrets storage : List String) : Value :=
  Value.map (RawMap.ofList
    [("tenant_id", Value.str tenant), ("object_id", Value.str object),
     ("certificate_permissions", Value.list (certificates.map Value.str)),
     ("key_permissions", Value.list (keys.map Value.str)),
     ("secret_permissions", Value.list (secrets.map Value.str)),
     ("storage_permissions", Value.list (storage.map Value.str))])

/-- The raw entry with the given six fields. -/
def rawEntry (tenant object application : String)
    (certificates keys secrets storage : List String) : Value :=
  Value.map (RawMap.ofList
    [("tenant_id", Value.str tenant), ("object_id", Value.str object),
     ("application_id", Value.str application),
     ("certificate_permissions", Value.list (certificates.map Value.str)),
     ("key_permissions", Value.list (keys.map Value.str)),
     ("secret_permissions", Value.list (secrets.map Value.str)),
     ("storage_permissions", Value.list (storage.map Value.str))])

/-- The entry of the concrete scenario: a canonical tenant id, an empty
`application_id`. -/
def scenarioEntry : Value :=
  rawEntry "11111111-1111-1111-1111-111111111111" "obj-1" "" ["Get", "List"] [] ["get"] []

/-- An entry whose tenant id is a UUID written in upper case. -/
def upperCaseEntry : Value :=
  rawEntry "AAAAAAAA-AAAA-AAAA-AAAA-AAAAAAAAAAAA" "obj-1" "" [] ["get"] [] []

/-- An entry whose tenant id is no UUID at all, and whose permission lists hold a
duplicate and an unknown token. -/
def garbledEntry : Value :=
  rawEntry "not-a-uuid" "" "also-not-a-uuid" [] ["get", "get", "list"] ["Get", "frobnicate"] []

/-- An entry with a canonical `application_id`. -/
def applicationEntry : Value :=
  rawEntry "11111111-1111-1111-1111-111111111111" "obj-2"
    "6ba7b810-9dad-11d1-80b4-00c04fd430c8" ["get"] [] [] ["set"]

/-- An entry without the `application_id` key. -/
def noApplicationEntry : Value :=
  rawEntryWithoutApplicationId "11111111-1111-1111-1111-111111111111" "obj-1" ["Get"] [] [] []

/-! ## Vocabulary of the validation statements -/

/-- The four permission categories. -/
inductive Category where
  | certificate : Category
  | key : Category
  | secret : Category
  | storage : Category
  deriving DecidableEq

namespace Category

/-- The schema declared for a category. -/
def schema (toLower : Char → Char) : Category → schema.Schema
  | certificate => schemaCertificatePermissions toLower
  | key => schemaKeyPermissions toLower
  | secret => schemaSecretPermissions toLower
  | storage => schemaStoragePermissions toLower

/-- Modelled from the spec: the closed vocabulary of each category, as the
Enumeration Catalog lists it. -/
def vocabulary : Category → List String
  | certificate =>
    ["backup", "create", "delete", "deleteissuers", "get", "getissuers", "import", "list",
      "listissuers", "managecontacts", "manageissuers", "purge", "recover", "restore",
      "setissuers", "update"]
  | key =>
    ["backup", "create", "decrypt", "delete", "encrypt", "get", "import", "list", "purge",
      "recover", "restore", "sign", "unwrapkey", "update", "verify", "wrapkey"]
  | secret => ["backup", "delete", "get", "list", "purge", "recover", "restore", "set"]
  | storage =>
    ["backup", "delete", "deletesas", "get", "getsas", "list", "listsas", "purge", "recover",
      "regeneratekey", "restore", "set", "setsas", "update"]

/-- The element validator of the category's schema reports no error for the
token `t` (validated under the attribute name `k`). -/
def accepts (toLower : Char → Char) (c : Category) (t k : String) : Bool :=
  ((c.schema toLower).Elem.ValidateFunc (Value.str t) k).2.isEmpty

end Category

/-- Two strings are equal ignoring letter case: they have the same length and
corresponding characters have the same lower-case form. -/
def equalIgnoringCase (toLower : Char → Char) (s t : String) : Prop :=
  List.Forall₂ (fun a b => toLower a = toLower b) s.data t.data

/-! ## Vocabulary of the statements about tokens and typed entries -/

/-- The raw field that carries the tokens of a category. -/
def Category.fieldName : Category → String
  | Category.certificate => "certificate_permissions"
  | Category.key => "key_permissions"
  | Category.secret => "secret_permissions"
  | Category.storage => "storage_permissions"

/-- The raw tokens of a category in a raw entry. -/
def Value.rawTokens (v : Value) (c : Category) : List String :=
  (v.field c.fieldName).getStrings

/-- The permission set of a category in a typed entry (`none` when the set, or
the `Permissions` record, is unset). -/
def permissionSet (e : keyvault.AccessPolicyEntry) (c : Category) : Option (List String) :=
  match e.Permissions with
  | none => none
  | some p =>
    match c with
    | Category.certificate => p.Certificates
    | Category.key => p.Keys
    | Category.secret => p.Secrets
    | Category.storage => p.Storage

/-- The tokens of a category in a typed entry (none when the set is unset). -/
def typedTokens (e : keyvault.AccessPolicyEntry) (c : Category) : List String :=
  match permissionSet e c with
  | none => []
  | some l => l

/-- Every field of the typed entry is populated: `TenantID`, `ObjectID`,
`ApplicationID`, `Permissions` and the four permission sets. -/
def fullyPopulated (e : keyvault.AccessPolicyEntry) : Bool :=
  e.TenantID.isSome && e.ObjectID.isSome && e.ApplicationID.isSome &&
  (match e.Permissions with
   | none => false
   | some p => p.Certificates.isSome && p.Keys.isSome && p.Secrets.isSome && p.Storage.isSome)

/-- A typed entry with every field populated; its application id is a populated
nil UUID. -/
def populatedPolicy : keyvault.AccessPolicyEntry :=
  { TenantID := some (uuid.FromStringOrNil "11111111-1111-1111-1111-111111111111")
    ObjectID := some "obj-1"
    ApplicationID := some uuid.Nil
    Permissions := some
      { Certificates := some ["Get", "List"], Keys := some [], Secrets := some ["get", "get"],
        Storage := some ["frobnicate"] } }

/-- A typed entry with only `ObjectID` and `Permissions` set, and in it only the
key permissions. -/
def sparsePolicy : keyvault.AccessPolicyEntry :=
  { TenantID := none
    ObjectID := some "obj-2"
    ApplicationID := none
    Permissions := some
      { Certificates := none, Keys := some ["get"], Secrets := none, Storage := none } }

/-- A typed entry with nothing set. -/
def emptyPolicy : keyvault.AccessPolicyEntry :=
  { TenantID := none, ObjectID := none, ApplicationID := none, Permissions := none }

/-! ## Vocabulary of the statements about the spelling of UUID strings -/

/-- The canonical string of the UUID a string denotes (the string itself when the
parser rejects it). -/
def canonicalUUIDString (s : String) : String :=
  match uuid.FromString s with
  | some u => u.String
  | none => s

/-- The UUID strings of a raw entry are accepted by the parser: its `tenant_id`,
and its `application_id` unless that is empty. -/
def Value.parseableIds (v : Value) : Bool :=
  (uuid.FromString (v.field "tenant_id").getString).isSome &&
  ((v.field "application_id").getString == "" ||
    (uuid.FromString (v.field "application_id").getString).isSome)

/-- The raw entry as the round trip gives it back: `tenant_id` replaced by the
canonical string of the UUID it denotes, and `application_id` dropped when it is
the empty string and replaced likewise otherwise. -/
def Value.canonicalizeIds (v : Value) : Value :=
  match v with
  | Value.map m =>
    let tenant := Value.str (canonicalUUIDString (v.field "tenant_id").getString)
    if (v.field "application_id").getString = "" then
      Value.map (RawMap.erase (RawMap.set m "tenant_id" tenant) "application_id")
    else
      Value.map (RawMap.set (RawMap.set m "tenant_id" tenant) "application_id"
        (Value.str (canonicalUUIDString (v.field "application_id").getString)))
  | _ => v

/-- The string with its letters in upper case. -/
def upperCaseForm (s : String) : String := ⟨s.data.map Char.toUpper⟩

/-- The string between an opening and a closing brace. -/
def bracedForm (s : String) : String := ⟨Char.ofNat 123 :: (s.data ++ [Char.ofNat 125])⟩

/-- The string after the prefix `urn:uuid:`. -/
def urnForm (s : String) : String := ⟨"urn:uuid:".data ++ s.data⟩

/-- The string without its dashes. -/
def dashlessForm (s : String) : String := ⟨s.data.filter (fun c => c != '-')⟩

/-- An entry whose tenant id is written between braces and whose application id
is written as a URN. -/
def bracedEntry : Value :=
  rawEntry "\x7b6ba7b810-9dad-11d1-80b4-00c04fd430c8\x7d" "obj-3"
    "urn:uuid:6ba7b810-9dad-11d1-80b4-00c04fd430c8" [] [] ["get"] []

/-! ## Lemmas: the loops are element-wise maps -/

theorem Value.eq_str_of_isString {v : Value} (h : v.isString = true) :
    v = Value.str v.getString := by
  cases v <;> simp_all [Value.isString, Value.getString]

theorem Value.map_str_getString {l : List Value} (h : l.all Value.isString = true) :
    l.map (fun v => Value.str v.getString) = l := by
  induction l with
  | nil => rfl
  | cons a t ih =>
    simp only [List.all_cons, Bool.and_eq_true] at h
    simp only [List.map_cons, ih h.2, ← Value.eq_str_of_isString h.1]

theorem Value.eq_list_of_isStringList {v : Value} (h : v.isStringList = true) :
    v = Value.list (v.getStrings.map Value.str) := by
  cases v with
  | list l =>
    simp only [Value.isStringList] at h
    simp only [Value.getStrings, List.map_map, Function.comp_def, Value.map_str_getString h]
  | _ => simp [Value.isStringList] at h

theorem Value.getStrings_list_str (l : List String) :
    (Value.list (l.map Value.str)).getStrings = l := by
  simp [Value.getStrings, Function.comp_def, Value.getString]

theorem RawMap.eq_some_of_index_str {m : RawMap} {k s : String}
    (h : RawMap.index m k = Value.str s) : m k = some (Value.str s) := by
  unfold RawMap.index at h
  split at h
  · next w hw => rw [hw, h]
  · exact absurd h (by simp)

theorem RawMap.eq_some_of_index_list {m : RawMap} {k : String} {l : List Value}
    (h : RawMap.index m k = Value.list l) : m k = some (Value.list l) := by
  unfold RawMap.index at h
  split at h
  · next w hw => rw [hw, h]
  · exact absurd h (by simp)

theorem RawMap.index_of_eq_some {m : RawMap} {k : String} {w : Value} (h : m k = some w) :
    RawMap.index m k = w := by
  simp [RawMap.index, h]

/-- The fields a well-typed raw entry carries. -/
theorem Value.fields_of_wellTypedOtherFields {v : Value} (h : v.wellTypedOtherFields = true) :
    ∃ (m : RawMap) (t o : String) (c k s st : List String),
      v = Value.map m ∧ m "tenant_id" = some (Value.str t) ∧ m "object_id" = some (Value.str o) ∧
      m "certificate_permissions" = some (Value.list (c.map Value.str)) ∧
      m "key_permissions" = some (Value.list (k.map Value.str)) ∧
      m "secret_permissions" = some (Value.list (s.map Value.str)) ∧
      m "storage_permissions" = some (Value.list (st.map Value.str)) := by
  cases v with
  | map m =>
    simp only [Value.wellTypedOtherFields, Bool.and_eq_true, Value.field] at h
    obtain ⟨⟨⟨⟨⟨ht, ho⟩, hc⟩, hk⟩, hs⟩, hst⟩ := h
    exact ⟨m, _, _, _, _, _, _, rfl,
      RawMap.eq_some_of_index_str (Value.eq_str_of_isString ht),
      RawMap.eq_some_of_index_str (Value.eq_str_of_isString ho),
      RawMap.eq_some_of_index_list (Value.eq_list_of_isStringList hc),
      RawMap.eq_some_of_index_list (Value.eq_list_of_isStringList hk),
      RawMap.eq_some_of_index_list (Value.eq_list_of_isStringList hs),
      RawMap.eq_some_of_index_list (Value.eq_list_of_isStringList hst)⟩
  | _ => simp [Value.wellTypedOtherFields] at h

theorem Value.fields_of_wellTypedEntry {v : Value} (h : v.wellTypedEntry = true) :
    ∃ (m : RawMap) (t o a : String) (c k s st : List String),
      v = Value.map m ∧ m "tenant_id" = some (Value.str t) ∧ m "object_id" = some (Value.str o) ∧
      m "application_id" = some (Value.str a) ∧
      m "certificate_permissions" = some (Value.list (c.map Value.str)) ∧
      m "key_permissions" = some (Value.list (k.map Value.str)) ∧
      m "secret_permissions" = some (Value.list (s.map Value.str)) ∧
      m "storage_permissions" = some (Value.list (st.map Value.str)) := by
  simp only [Value.wellTypedEntry, Bool.and_eq_true] at h
  obtain ⟨m, t, o, c, k, s, st, rfl, ht, ho, hc, hk, hs, hst⟩ :=
    Value.fields_of_wellTypedOtherFields h.1
  exact ⟨m, t, o, _, c, k, s, st, rfl, ht, ho,
    RawMap.eq_some_of_index_str (Value.eq_str_of_isString h.2), hc, hk, hs, hst⟩

theorem expandPermissionsLoop_strs (l acc : List String) :
    expandPermissionsLoop (l.map Value.str) acc = .ok (acc ++ l) := by
  induction l generalizing acc with
  | nil => simp [expandPermissionsLoop]
  | cons a t ih => simp [expandPermissionsLoop, Value.assertString, ih]

theorem flattenPermissionsLoop_eq (l : List String) (acc : List Value) :
    flattenPermissionsLoop l acc = acc ++ l.map Value.str := by
  induction l generalizing acc with
  | nil => simp [flattenPermissionsLoop]
  | cons a t ih => simp [flattenPermissionsLoop, ih]

theorem flattenAccessPoliciesLoop_eq (l : List keyvault.AccessPolicyEntry) (acc : List RawMap) :
    flattenAccessPoliciesLoop l acc = acc ++ l.map flattenAccessPolicy := by
  induction l generalizing acc with
  | nil => simp [flattenAccessPoliciesLoop]
  | cons a t ih => simp [flattenAccessPoliciesLoop, ih]

theorem flattenAccessPolicies_some (l : List keyvault.AccessPolicyEntry) :
    flattenAccessPolicies (some l) = l.map flattenAccessPolicy := by
  simp [flattenAccessPolicies, flattenAccessPoliciesLoop_eq]

/-- Decoding one entry with explicitly given, well-typed fields. -/
theorem expandAccessPolicy_fields {m : RawMap} {t o a : String} {c k s st : List String}
    (ht : m "tenant_id" = some (Value.str t)) (ho : m "object_id" = some (Value.str o))
    (ha : m "application_id" = some (Value.str a))
    (hc : m "certificate_permissions" = some (Value.list (c.map Value.str)))
    (hk : m "key_permissions" = some (Value.list (k.map Value.str)))
    (hs : m "secret_permissions" = some (Value.list (s.map Value.str)))
    (hst : m "storage_permissions" = some (Value.list (st.map Value.str))) :
    expandAccessPolicy (Value.map m) = .ok
      { TenantID := some (uuid.FromStringOrNil t)
        ObjectID := some o
        ApplicationID := if a = "" then none else some (uuid.FromStringOrNil a)
        Permissions := some
          { Certificates := some c, Keys := some k, Secrets := some s, Storage := some st } } := by
  simp only [expandAccessPolicy, Value.assertMap, bind, Except.bind,
    RawMap.index_of_eq_some ht, RawMap.index_of_eq_some ho, RawMap.index_of_eq_some ha,
    RawMap.index_of_eq_some hc, RawMap.index_of_eq_some hk, RawMap.index_of_eq_some hs,
    RawMap.index_of_eq_some hst, Value.assertSlice, Value.assertString,
    expandCertificatePermissions, expandKeyPermissions, expandSecretPermissions,
    expandStoragePermissions, expandPermissionsLoop_strs, List.nil_append,
    Value.neEmptyString, pure, Except.pure]
  by_cases hae : a = "" <;> simp [hae]

theorem typedOf_fields {m : RawMap} {t o a : String} {c k s st : List String}
    (ht : m "tenant_id" = some (Value.str t)) (ho : m "object_id" = some (Value.str o))
    (ha : m "application_id" = some (Value.str a))
    (hc : m "certificate_permissions" = some (Value.list (c.map Value.str)))
    (hk : m "key_permissions" = some (Value.list (k.map Value.str)))
    (hs : m "secret_permissions" = some (Value.list (s.map Value.str)))
    (hst : m "storage_permissions" = some (Value.list (st.map Value.str))) :
    typedOf (Value.map m) =
      { TenantID := some (uuid.FromStringOrNil t)
        ObjectID := some o
        ApplicationID := if a = "" then none else some (uuid.FromStringOrNil a)
        Permissions := some
          { Certificates := some c, Keys := some k, Secrets := some s, Storage := some st } } := by
  simp only [typedOf, Value.field, RawMap.index_of_eq_some ht, RawMap.index_of_eq_some ho,
    RawMap.index_of_eq_some ha, RawMap.index_of_eq_some hc, RawMap.index_of_eq_some hk,
    RawMap.index_of_eq_some hs, RawMap.index_of_eq_some hst, Value.getString,
    Value.getStrings_list_str]

theorem expandAccessPolicy_wellTyped (v : Value) (h : v.wellTypedEntry = true) :
    expandAccessPolicy v = .ok (typedOf v) := by
  obtain ⟨m, t, o, a, c, k, s, st, rfl, ht, ho, ha, hc, hk, hs, hst⟩ :=
    Value.fields_of_wellTypedEntry h
  rw [expandAccessPolicy_fields ht ho ha hc hk hs hst, typedOf_fields ht ho ha hc hk hs hst]

theorem expandAccessPoliciesLoop_wellTyped (x : List Value) (acc : List keyvault.AccessPolicyEntry)
    (h : ∀ v ∈ x, v.wellTypedEntry = true) :
    expandAccessPoliciesLoop x acc = .ok (acc ++ x.map typedOf) := by
  induction x generalizing acc with
  | nil => simp [expandAccessPoliciesLoop]
  | cons a t ih =>
    have ha := expandAccessPolicy_wellTyped a (h a (List.mem_cons_self _ _))
    have ht : ∀ v ∈ t, v.wellTypedEntry = true := fun v hv => h v (List.mem_cons_of_mem _ hv)
    simp [expandAccessPoliciesLoop, ha, ih _ ht]

/-- On structurally well-formed input, decoding succeeds and is the element-wise
map of `typedOf`. -/
theorem expandAccessPolicies_wellTyped (x : List Value)
    (h : ∀ v ∈ x, v.wellTypedEntry = true) :
    expandAccessPolicies x = .ok (some (x.map typedOf)) := by
  simp [expandAccessPolicies, expandAccessPoliciesLoop_wellTyped x [] h]

/-- The raw map encoded from the typed entry of a well-typed raw entry, key by key. -/
theorem flattenAccessPolicy_typedOf {m : RawMap} {t o a : String} {c k s st : List String}
    (ht : m "tenant_id" = some (Value.str t)) (ho : m "object_id" = some (Value.str o))
    (ha : m "application_id" = some (Value.str a))
    (hc : m "certificate_permissions" = some (Value.list (c.map Value.str)))
    (hk : m "key_permissions" = some (Value.list (k.map Value.str)))
    (hs : m "secret_permissions" = some (Value.list (s.map Value.str)))
    (hst : m "storage_permissions" = some (Value.list (st.map Value.str))) (key : String) :
    flattenAccessPolicy (typedOf (Value.map m)) key =
      if key = "tenant_id" then some (Value.str (uuid.FromStringOrNil t).String)
      else if key = "application_id" then
        (if a = "" then none else some (Value.str (uuid.FromStringOrNil a).String))
      else if key ∈ entryKeys then m key
      else none := by
  rw [typedOf_fields ht ho ha hc hk hs hst]
  by_cases hae : a = ""
  · simp only [flattenAccessPolicy, hae, if_true, RawMap.set, RawMap.empty,
      flattenCertificatePermissions, flattenKeyPermissions, flattenSecretPermissions,
      flattenStoragePermissions, flattenPermissionsLoop_eq, List.nil_append, entryKeys]
    by_cases h1 : key = "storage_permissions"
    · subst h1; simp [hst]
    by_cases h2 : key = "secret_permissions"
    · subst h2; simp [hs]
    by_cases h3 : key = "key_permissions"
    · subst h3; simp [hk]
    by_cases h4 : key = "certificate_permissions"
    · subst h4; simp [hc]
    by_cases h5 : key = "object_id"
    · subst h5; simp [ho]
    by_cases h6 : key = "tenant_id"
    · subst h6; simp
    by_cases h7 : key = "application_id" <;> simp [h1, h2, h3, h4, h5, h6, h7]
  · simp only [flattenAccessPolicy, hae, if_false, RawMap.set, RawMap.empty,
      flattenCertificatePermissions, flattenKeyPermissions, flattenSecretPermissions,
      flattenStoragePermissions, flattenPermissionsLoop_eq, List.nil_append, entryKeys]
    by_cases h1 : key = "storage_permissions"
    · subst h1; simp [hst]
    by_cases h2 : key = "secret_permissions"
    · subst h2; simp [hs]
    by_cases h3 : key = "key_permissions"
    · subst h3; simp [hk]
    by_cases h4 : key = "certificate_permissions"
    · subst h4; simp [hc]
    by_cases h7 : key = "application_id"
    · subst h7; simp
    by_cases h5 : key = "object_id"
    · subst h5; simp [ho]
    by_cases h6 : key = "tenant_id"
    · subst h6; simp
    simp [h1, h2, h3, h4, h5, h6, h7]

theorem uuid.FromStringOrNil_of_none {s : String} (h : uuid.FromString s = none) :
    uuid.FromStringOrNil s = uuid.Nil := by
  simp [uuid.FromStringOrNil, h]

theorem uuid.FromStringOrNil_of_some {s : String} {u : uuid.UUID} (h : uuid.FromString s = some u) :
    uuid.FromStringOrNil s = u := by
  simp [uuid.FromStringOrNil, h]

theorem uuid.Nil_String : uuid.Nil.String = "00000000-0000-0000-0000-000000000000" := by
  decide

/-- The round trip of one well-typed entry gives back `object_id` and the four
permission lists as they were. -/
theorem roundtrip_entry_lookup {v : Value} (h : v.wellTypedEntry = true) :
    flattenAccessPolicy (typedOf v) "object_id" = v.lookup "object_id" ∧
    flattenAccessPolicy (typedOf v) "certificate_permissions" =
      v.lookup "certificate_permissions" ∧
    flattenAccessPolicy (typedOf v) "key_permissions" = v.lookup "key_permissions" ∧
    flattenAccessPolicy (typedOf v) "secret_permissions" = v.lookup "secret_permissions" ∧
    flattenAccessPolicy (typedOf v) "storage_permissions" = v.lookup "storage_permissions" := by
  obtain ⟨m, t, o, a, c, k, s, st, rfl, ht, ho, ha, hc, hk, hs, hst⟩ :=
    Value.fields_of_wellTypedEntry h
  simp [flattenAccessPolicy_typedOf ht ho ha hc hk hs hst, entryKeys, Value.lookup]

/-- The round trip of one well-typed entry gives the canonical string of the
leniently parsed UUID under `tenant_id`, and under `application_id` unless that
field was empty. -/
theorem roundtrip_entry_ids {v : Value} (h : v.wellTypedEntry = true) :
    flattenAccessPolicy (typedOf v) "tenant_id" =
      some (Value.str (uuid.FromStringOrNil (v.field "tenant_id").getString).String) ∧
    flattenAccessPolicy (typedOf v) "application_id" =
      (if (v.field "application_id").getString = "" then none
       else some (Value.str (uuid.FromStringOrNil (v.field "application_id").getString).String)) := by
  obtain ⟨m, t, o, a, c, k, s, st, rfl, ht, ho, ha, hc, hk, hs, hst⟩ :=
    Value.fields_of_wellTypedEntry h
  simp [flattenAccessPolicy_typedOf ht ho ha hc hk hs hst, Value.field,
    RawMap.index_of_eq_some ht, RawMap.index_of_eq_some ha, Value.getString]

theorem getElem?_map_typedOf {x : List Value} {i : Nat} {v : Value}
    {e : keyvault.AccessPolicyEntry} (hv : x[i]? = some v) (he : (x.map typedOf)[i]? = some e) :
    e = typedOf v := by
  simp [List.getElem?_map, hv] at he
  exact he.symm

theorem mem_of_getElem?_eq_some {α : Type} {x : List α} {i : Nat} {v : α} (hv : x[i]? = some v) :
    v ∈ x := by
  obtain ⟨hi, rfl⟩ := List.getElem?_eq_some.mp hv
  exact List.getElem_mem _

/-- Decoding fails on an entry without the `application_id` key. -/
theorem expandAccessPolicy_absent_application_id {v : Value}
    (h : v.wellTypedOtherFields = true) (ha : v.lookup "application_id" = none) :
    expandAccessPolicy v = .error Panic.interfaceConversion := by
  obtain ⟨m, t, o, c, k, s, st, rfl, ht, ho, hc, hk, hs, hst⟩ :=
    Value.fields_of_wellTypedOtherFields h
  have hidx : RawMap.index m "application_id" = Value.nil := by
    simp only [Value.lookup] at ha
    simp [RawMap.index, ha]
  simp only [expandAccessPolicy, Value.assertMap, bind, Except.bind,
    RawMap.index_of_eq_some ht, RawMap.index_of_eq_some ho, hidx,
    RawMap.index_of_eq_some hc, RawMap.index_of_eq_some hk, RawMap.index_of_eq_some hs,
    RawMap.index_of_eq_some hst, Value.assertSlice, Value.assertString,
    expandCertificatePermissions, expandKeyPermissions, expandSecretPermissions,
    expandStoragePermissions, expandPermissionsLoop_strs, List.nil_append,
    Value.neEmptyString, pure, Except.pure]
  simp

theorem Value.wellTypedEntry_withField_application_id {v : Value}
    (h : v.wellTypedOtherFields = true) (a : String) :
    (v.withField "application_id" (Value.str a)).wellTypedEntry = true ∧
    ((v.withField "application_id" (Value.str a)).field "application_id").getString = a := by
  obtain ⟨m, t, o, c, k, s, st, rfl, ht, ho, hc, hk, hs, hst⟩ :=
    Value.fields_of_wellTypedOtherFields h
  simp [Value.wellTypedEntry, Value.wellTypedOtherFields, Value.withField, Value.field,
    RawMap.index, RawMap.set, Value.isString, Value.isStringList, Value.getString,
    ht, ho, hc, hk, hs, hst]


/-! ## Lemmas: hexadecimal digits and canonical UUID strings -/

theorem utf8EncodeChar_of_ascii (c : Char) (h : c.toNat < 128) :
    (String.utf8EncodeChar c).map UInt8.toNat = [c.toNat] := by
  have hv : c.val ≤ 127 := by
    rw [UInt32.le_def]
    show c.val.toNat ≤ 127
    have : c.toNat = c.val.toNat := rfl
    omega
  simp only [String.utf8EncodeChar, hv, if_true, List.map_cons, List.map_nil]
  have h2 : c.val.toUInt8.toNat = c.val.toNat % 256 := by
    simp [UInt32.toUInt8, UInt8.toNat, Nat.toUInt8, UInt8.ofNat, Fin.ofNat]
  have h3 : c.toNat = c.val.toNat := rfl
  rw [h2, h3]
  congr 1
  omega

theorem isLowerHexDigit_spec (c : Char) (h : isLowerHexDigit c = true) :
    ∃ n, n < 16 ∧ hex.fromHexChar c.toNat = some n ∧ hex.hextable.getD n '0' = c ∧
      c.toNat < 128 := by
  have hc : c = Char.ofNat c.toNat := (Char.ofNat_toNat c).symm
  simp only [isLowerHexDigit, Bool.or_eq_true, Bool.and_eq_true, decide_eq_true_eq] at h
  have key : ∀ n : Nat, (48 ≤ n ∧ n ≤ 57) ∨ (97 ≤ n ∧ n ≤ 102) →
      ∃ k, k < 16 ∧ hex.fromHexChar n = some k ∧ hex.hextable.getD k '0' = Char.ofNat n ∧
        n < 128 := by
    intro n hn
    rcases hn with ⟨h1, h2⟩ | ⟨h1, h2⟩ <;> interval_cases n <;> exact ⟨_, by decide, rfl, by decide, by decide⟩
  have hn : (48 ≤ c.toNat ∧ c.toNat ≤ 57) ∨ (97 ≤ c.toNat ∧ c.toNat ≤ 102) := by
    rcases h with ⟨h1, h2⟩ | ⟨h1, h2⟩
    · left
      rw [Char.le_def] at h1 h2
      exact ⟨h1, h2⟩
    · right
      rw [Char.le_def] at h1 h2
      exact ⟨h1, h2⟩
  obtain ⟨k, hk1, hk2, hk3, hk4⟩ := key c.toNat hn
  exact ⟨k, hk1, hk2, by rw [hk3, ← hc], hk4⟩

theorem stringBytes_of_ascii (l : List Char) (h : ∀ c ∈ l, c.toNat < 128) :
    stringBytes ⟨l⟩ = l.map Char.toNat := by
  induction l with
  | nil => rfl
  | cons a t ih =>
    have ha := utf8EncodeChar_of_ascii a (h a (List.mem_cons_self _ _))
    have ht := ih (fun c hc => h c (List.mem_cons_of_mem _ hc))
    simp only [stringBytes, List.flatMap_cons, List.map_cons] at ht ⊢
    rw [ha, ht]
    rfl

theorem hex.byte_of_digits :
    ∀ hi lo : Fin 16,
      ((Fin.ofNat ((hi.val <<< 4) ||| lo.val) : Byte).val >>> 4 = hi.val) ∧
      ((Fin.ofNat ((hi.val <<< 4) ||| lo.val) : Byte).val &&& 0x0f = lo.val) := by
  decide

/-- Decoding lower-case hexadecimal digits and encoding the bytes again gives the
digits back. -/
theorem hex.Encode_Decode (n : Nat) :
    ∀ g : List Char, g.length = 2 * n → (∀ c ∈ g, isLowerHexDigit c = true) →
      ∃ bs, hex.Decode (g.map Char.toNat) = some bs ∧ hex.Encode bs = g ∧ bs.length = n := by
  induction n with
  | zero =>
    intro g hg _
    have : g = [] := List.length_eq_zero.mp (by simpa using hg)
    subst this
    exact ⟨[], rfl, rfl, rfl⟩
  | succ n ih =>
    intro g hg hall
    match g, hg, hall with
    | a :: b :: rest, hg, hall =>
      have hrest : rest.length = 2 * n := by
        simp only [List.length_cons] at hg
        omega
      obtain ⟨bs, hbs, henc, hlen⟩ := ih rest hrest
        (fun c hc => hall c (List.mem_cons_of_mem _ (List.mem_cons_of_mem _ hc)))
      obtain ⟨hi, hhi, hfa, hta, _⟩ := isLowerHexDigit_spec a (hall a (List.mem_cons_self _ _))
      obtain ⟨lo, hlo, hfb, htb, _⟩ :=
        isLowerHexDigit_spec b (hall b (List.mem_cons_of_mem _ (List.mem_cons_self _ _)))
      have hb := hex.byte_of_digits ⟨hi, hhi⟩ ⟨lo, hlo⟩
      simp only at hb
      refine ⟨Fin.ofNat ((hi <<< 4) ||| lo) :: bs, ?_, ?_, by simp [hlen]⟩
      · simp only [List.map_cons, hex.Decode, hfa, hfb, hbs]
      · simp only [hex.Encode, hb.1, hb.2, hta, htb, henc]
    | [], hg, _ => simp at hg
    | [_], hg, _ => simp at hg; omega

theorem drop_eq_dash_cons_of_getD {l : List Char} {n : Nat} (hn : n < l.length)
    (h : l.getD n ' ' = '-') : l.drop n = '-' :: l.drop (n + 1) := by
  rw [List.drop_eq_getElem_cons hn, ← h, List.getD_eq_getElem l ' ' hn]

theorem take_append_drop_add (l : List Char) (n k : Nat) :
    (l.drop n).take k ++ l.drop (n + k) = l.drop n := by
  have := List.take_append_drop k (l.drop n)
  rwa [List.drop_drop] at this

/-- A canonical UUID string is five groups of lower-case hexadecimal digits, of
8, 4, 4, 4 and 12 digits, separated by dashes. -/
theorem isCanonicalUUIDString_groups {s : String} (h : isCanonicalUUIDString s = true) :
    ∃ g1 g2 g3 g4 g5 : List Char,
      s.data = g1 ++ '-' :: (g2 ++ '-' :: (g3 ++ '-' :: (g4 ++ '-' :: g5))) ∧
      g1.length = 2 * 4 ∧ g2.length = 2 * 2 ∧ g3.length = 2 * 2 ∧ g4.length = 2 * 2 ∧
      g5.length = 2 * 6 ∧
      (∀ c ∈ g1, isLowerHexDigit c = true) ∧ (∀ c ∈ g2, isLowerHexDigit c = true) ∧
      (∀ c ∈ g3, isLowerHexDigit c = true) ∧ (∀ c ∈ g4, isLowerHexDigit c = true) ∧
      (∀ c ∈ g5, isLowerHexDigit c = true) := by
  simp only [isCanonicalUUIDString, Bool.and_eq_true, beq_iff_eq, List.all_eq_true] at h
  obtain ⟨⟨⟨⟨⟨⟨⟨⟨⟨hlen, h1⟩, d1⟩, h2⟩, d2⟩, h3⟩, d3⟩, h4⟩, d4⟩, h5⟩ := h
  have e1 := drop_eq_dash_cons_of_getD (l := s.data) (n := 8) (by omega) d1
  have e2 := drop_eq_dash_cons_of_getD (l := s.data) (n := 13) (by omega) d2
  have e3 := drop_eq_dash_cons_of_getD (l := s.data) (n := 18) (by omega) d3
  have e4 := drop_eq_dash_cons_of_getD (l := s.data) (n := 23) (by omega) d4
  have k4 : (s.data.drop 19).take 4 ++ '-' :: s.data.drop 24 = s.data.drop 19 := by
    rw [← e4]; exact take_append_drop_add s.data 19 4
  have k3 : (s.data.drop 14).take 4 ++ '-' ::
      ((s.data.drop 19).take 4 ++ '-' :: s.data.drop 24) = s.data.drop 14 := by
    rw [k4, ← e3]; exact take_append_drop_add s.data 14 4
  have k2 : (s.data.drop 9).take 4 ++ '-' :: ((s.data.drop 14).take 4 ++ '-' ::
      ((s.data.drop 19).take 4 ++ '-' :: s.data.drop 24)) = s.data.drop 9 := by
    rw [k3, ← e2]; exact take_append_drop_add s.data 9 4
  have k1 : s.data.take 8 ++ '-' :: ((s.data.drop 9).take 4 ++ '-' ::
      ((s.data.drop 14).take 4 ++ '-' ::
      ((s.data.drop 19).take 4 ++ '-' :: s.data.drop 24))) = s.data := by
    rw [k2, ← e1]; exact List.take_append_drop 8 s.data
  refine ⟨_, _, _, _, _, k1.symm, ?_, ?_, ?_, ?_, ?_, h1, h2, h3, h4, h5⟩ <;>
    simp only [List.length_take, List.length_drop] <;> omega

theorem uuid.decodeCanonical_groups {g1 g2 g3 g4 g5 : List Nat} {b1 b2 b3 b4 b5 : List Byte}
    (l1 : g1.length = 8) (l2 : g2.length = 4) (l3 : g3.length = 4) (l4 : g4.length = 4)
    (l5 : g5.length = 12)
    (d1 : hex.Decode g1 = some b1) (d2 : hex.Decode g2 = some b2) (d3 : hex.Decode g3 = some b3)
    (d4 : hex.Decode g4 = some b4) (d5 : hex.Decode g5 = some b5) :
    uuid.decodeCanonical (g1 ++ 45 :: (g2 ++ 45 :: (g3 ++ 45 :: (g4 ++ 45 :: g5)))) =
      some (b1 ++ (b2 ++ (b3 ++ (b4 ++ b5)))) := by
  have t5 : List.take 12 g5 = g5 := List.take_of_length_le (by omega)
  have c1 : (g1 ++ 45 :: (g2 ++ 45 :: (g3 ++ 45 :: (g4 ++ 45 :: g5)))).getD 8 0 = 45 := by
    rw [List.getD_append_right _ _ _ _ (by omega), l1]; rfl
  have c2 : (g1 ++ 45 :: (g2 ++ 45 :: (g3 ++ 45 :: (g4 ++ 45 :: g5)))).getD 13 0 = 45 := by
    rw [List.getD_append_right _ _ _ _ (by omega), l1]
    show (g2 ++ 45 :: (g3 ++ 45 :: (g4 ++ 45 :: g5))).getD 4 0 = 45
    rw [List.getD_append_right _ _ _ _ (by omega), l2]; rfl
  have c3 : (g1 ++ 45 :: (g2 ++ 45 :: (g3 ++ 45 :: (g4 ++ 45 :: g5)))).getD 18 0 = 45 := by
    rw [List.getD_append_right _ _ _ _ (by omega), l1]
    show (g2 ++ 45 :: (g3 ++ 45 :: (g4 ++ 45 :: g5))).getD 9 0 = 45
    rw [List.getD_append_right _ _ _ _ (by omega), l2]
    show (g3 ++ 45 :: (g4 ++ 45 :: g5)).getD 4 0 = 45
    rw [List.getD_append_right _ _ _ _ (by omega), l3]; rfl
  have c4 : (g1 ++ 45 :: (g2 ++ 45 :: (g3 ++ 45 :: (g4 ++ 45 :: g5)))).getD 23 0 = 45 := by
    rw [List.getD_append_right _ _ _ _ (by omega), l1]
    show (g2 ++ 45 :: (g3 ++ 45 :: (g4 ++ 45 :: g5))).getD 14 0 = 45
    rw [List.getD_append_right _ _ _ _ (by omega), l2]
    show (g3 ++ 45 :: (g4 ++ 45 :: g5)).getD 9 0 = 45
    rw [List.getD_append_right _ _ _ _ (by omega), l3]
    show (g4 ++ 45 :: g5).getD 4 0 = 45
    rw [List.getD_append_right _ _ _ _ (by omega), l4]; rfl
  simp only [uuid.decodeCanonical, c1, c2, c3, c4, ne_eq, not_true_eq_false, or_self, if_false,
    uuid.byteGroups, uuid.decodeCanonicalLoop, if_true, List.take_left' l1, List.drop_left' l1,
    List.drop_succ_cons, List.drop_zero, List.take_left' l2, List.drop_left' l2,
    List.take_left' l3, List.drop_left' l3, List.take_left' l4, List.drop_left' l4, t5,
    d1, d2, d3, d4, d5, Bool.false_eq_true, List.append_nil]

/-- Parsing a canonical UUID string succeeds, and the canonical string of the
parsed UUID is the string itself. -/
theorem uuid.String_FromString_of_canonical {s : String} (h : isCanonicalUUIDString s = true) :
    ∃ u, uuid.FromString s = some u ∧ u.String = s := by
  obtain ⟨g1, g2, g3, g4, g5, hs, l1, l2, l3, l4, l5, a1, a2, a3, a4, a5⟩ :=
    isCanonicalUUIDString_groups h
  obtain ⟨b1, hd1, he1, n1⟩ := hex.Encode_Decode 4 g1 l1 a1
  obtain ⟨b2, hd2, he2, n2⟩ := hex.Encode_Decode 2 g2 l2 a2
  obtain ⟨b3, hd3, he3, n3⟩ := hex.Encode_Decode 2 g3 l3 a3
  obtain ⟨b4, hd4, he4, n4⟩ := hex.Encode_Decode 2 g4 l4 a4
  obtain ⟨b5, hd5, he5, n5⟩ := hex.Encode_Decode 6 g5 l5 a5
  have hascii : ∀ c ∈ s.data, c.toNat < 128 := by
    intro c hc
    rw [hs] at hc
    simp only [List.mem_append, List.mem_cons] at hc
    rcases hc with hc | rfl | hc | rfl | hc | rfl | hc | rfl | hc
    · exact (isLowerHexDigit_spec c (a1 c hc)).choose_spec.2.2.2
    · decide
    · exact (isLowerHexDigit_spec c (a2 c hc)).choose_spec.2.2.2
    · decide
    · exact (isLowerHexDigit_spec c (a3 c hc)).choose_spec.2.2.2
    · decide
    · exact (isLowerHexDigit_spec c (a4 c hc)).choose_spec.2.2.2
    · decide
    · exact (isLowerHexDigit_spec c (a5 c hc)).choose_spec.2.2.2
  have hbytes : stringBytes s = g1.map Char.toNat ++ 45 :: (g2.map Char.toNat ++ 45 ::
      (g3.map Char.toNat ++ 45 :: (g4.map Char.toNat ++ 45 :: g5.map Char.toNat))) := by
    have := stringBytes_of_ascii s.data hascii
    rw [show (⟨s.data⟩ : String) = s from rfl] at this
    rw [this, hs]
    simp only [List.map_append, List.map_cons]
    rfl
  have hlen : (stringBytes s).length = 36 := by
    rw [hbytes]
    simp only [List.length_append, List.length_cons, List.length_map, l1, l2, l3, l4, l5]
  have hdec : uuid.UnmarshalText (stringBytes s) = some (b1 ++ (b2 ++ (b3 ++ (b4 ++ b5)))) := by
    simp only [uuid.UnmarshalText, hlen]
    rw [hbytes]
    exact uuid.decodeCanonical_groups (by simp [l1]) (by simp [l2]) (by simp [l3])
      (by simp [l4]) (by simp [l5]) hd1 hd2 hd3 hd4 hd5
  have hsize : (b1 ++ (b2 ++ (b3 ++ (b4 ++ b5)))).length = 16 := by
    simp only [List.length_append, n1, n2, n3, n4, n5]
  refine ⟨⟨b1 ++ (b2 ++ (b3 ++ (b4 ++ b5))), hsize⟩, ?_, ?_⟩
  · simp only [uuid.FromString, hdec, hsize, dite_true]
  · apply String.ext
    have t5 : List.drop 6 b5 = [] := List.drop_of_length_le (by omega)
    simp only [uuid.UUID.String, List.take_left' n1, List.drop_left' n1,
      show (10 : Nat) = 4 + 6 from rfl, show (8 : Nat) = 4 + 4 from rfl,
      show (6 : Nat) = 4 + 2 from rfl, ← List.drop_drop, List.take_left' n2, List.drop_left' n2,
      show (4 + 2 : Nat) = 2 + 2 + 2 from rfl, show (4 : Nat) = 2 + 2 from rfl,
      List.take_left' n3, List.drop_left' n3, List.take_left' n4, List.drop_left' n4,
      he1, he2, he3, he4, he5, hs]

theorem uuid.String_FromStringOrNil_of_canonical {s : String}
    (h : isCanonicalUUIDString s = true) : (uuid.FromStringOrNil s).String = s := by
  obtain ⟨u, hu, hs⟩ := uuid.String_FromString_of_canonical h
  rw [uuid.FromStringOrNil_of_some hu, hs]

set_option maxRecDepth 100000 in
theorem hex.digits_of_byte :
    ∀ v : Byte,
      hex.fromHexChar (hex.hextable.getD (v.val >>> 4) '0').toNat = some (v.val >>> 4) ∧
      hex.fromHexChar (hex.hextable.getD (v.val &&& 0x0f) '0').toNat = some (v.val &&& 0x0f) ∧
      (Fin.ofNat (((v.val >>> 4) <<< 4) ||| (v.val &&& 0x0f)) : Byte) = v ∧
      (hex.hextable.getD (v.val >>> 4) '0').toNat < 128 ∧
      (hex.hextable.getD (v.val &&& 0x0f) '0').toNat < 128 := by
  decide

/-- Encoding bytes and decoding the digits again gives the bytes back. -/
theorem hex.Decode_Encode (bs : List Byte) :
    hex.Decode ((hex.Encode bs).map Char.toNat) = some bs := by
  induction bs with
  | nil => rfl
  | cons v rest ih =>
    obtain ⟨h1, h2, h3, _, _⟩ := hex.digits_of_byte v
    simp only [hex.Encode, List.map_cons, hex.Decode, h1, h2, h3, ih]

theorem hex.Encode_length (bs : List Byte) : (hex.Encode bs).length = 2 * bs.length := by
  induction bs with
  | nil => rfl
  | cons v rest ih => simp only [hex.Encode, List.length_cons, ih]; omega

theorem hex.Encode_ascii (bs : List Byte) : ∀ c ∈ hex.Encode bs, c.toNat < 128 := by
  induction bs with
  | nil => simp [hex.Encode]
  | cons v rest ih =>
    obtain ⟨_, _, _, h4, h5⟩ := hex.digits_of_byte v
    intro c hc
    simp only [hex.Encode, List.mem_cons] at hc
    rcases hc with rfl | rfl | hc
    · exact h4
    · exact h5
    · exact ih c hc

/-- Parsing the canonical string of a UUID gives the UUID back. -/
theorem uuid.FromString_String (u : uuid.UUID) : uuid.FromString u.String = some u := by
  obtain ⟨bs, hsize⟩ := u
  have n1 : (bs.take 4).length = 4 := by simp [hsize]
  have n2 : ((bs.drop 4).take 2).length = 2 := by simp [hsize]
  have n3 : ((bs.drop 6).take 2).length = 2 := by simp [hsize]
  have n4 : ((bs.drop 8).take 2).length = 2 := by simp [hsize]
  have n5 : (bs.drop 10).length = 6 := by simp [hsize]
  have hascii : ∀ c ∈ (uuid.UUID.String ⟨bs, hsize⟩).data, c.toNat < 128 := by
    intro c hc
    simp only [uuid.UUID.String, List.mem_append, List.mem_cons] at hc
    rcases hc with hc | rfl | hc | rfl | hc | rfl | hc | rfl | hc
    · exact hex.Encode_ascii _ c hc
    · decide
    · exact hex.Encode_ascii _ c hc
    · decide
    · exact hex.Encode_ascii _ c hc
    · decide
    · exact hex.Encode_ascii _ c hc
    · decide
    · exact hex.Encode_ascii _ c hc
  have hbytes : stringBytes (uuid.UUID.String ⟨bs, hsize⟩) =
      (hex.Encode (bs.take 4)).map Char.toNat ++ 45 ::
        ((hex.Encode ((bs.drop 4).take 2)).map Char.toNat ++ 45 ::
          ((hex.Encode ((bs.drop 6).take 2)).map Char.toNat ++ 45 ::
            ((hex.Encode ((bs.drop 8).take 2)).map Char.toNat ++ 45 ::
              (hex.Encode (bs.drop 10)).map Char.toNat))) := by
    have := stringBytes_of_ascii _ hascii
    rw [show (⟨(uuid.UUID.String ⟨bs, hsize⟩).data⟩ : String) = uuid.UUID.String ⟨bs, hsize⟩
      from rfl] at this
    rw [this]
    simp only [uuid.UUID.String, List.map_append, List.map_cons]
    rfl
  have hlen : (stringBytes (uuid.UUID.String ⟨bs, hsize⟩)).length = 36 := by
    rw [hbytes]
    simp only [List.length_append, List.length_cons, List.length_map, hex.Encode_length,
      n1, n2, n3, n4, n5]
  have hdec : uuid.UnmarshalText (stringBytes (uuid.UUID.String ⟨bs, hsize⟩)) =
      some (bs.take 4 ++ ((bs.drop 4).take 2 ++ ((bs.drop 6).take 2 ++
        ((bs.drop 8).take 2 ++ bs.drop 10)))) := by
    simp only [uuid.UnmarshalText, hlen]
    rw [hbytes]
    exact uuid.decodeCanonical_groups (by simp [hex.Encode_length, n1])
      (by simp [hex.Encode_length, n2]) (by simp [hex.Encode_length, n3])
      (by simp [hex.Encode_length, n4]) (by simp [hex.Encode_length, n5])
      (hex.Decode_Encode _) (hex.Decode_Encode _) (hex.Decode_Encode _) (hex.Decode_Encode _)
      (hex.Decode_Encode _)
  have hjoin : bs.take 4 ++ ((bs.drop 4).take 2 ++ ((bs.drop 6).take 2 ++
      ((bs.drop 8).take 2 ++ bs.drop 10))) = bs := by
    have k4 := List.take_append_drop 2 (bs.drop 8)
    have k3 := List.take_append_drop 2 (bs.drop 6)
    have k2 := List.take_append_drop 2 (bs.drop 4)
    have k1 := List.take_append_drop 4 bs
    simp only [List.drop_drop] at k4 k3 k2
    rw [k4, k3, k2, k1]
  simp only [uuid.FromString, hdec, hjoin, hsize, dite_true]

theorem rawEntry_exactEntry (t o a : String) (c k s st : List String) :
    (rawEntry t o a c k s st).exactEntry := by
  constructor
  · simp [rawEntry, Value.wellTypedEntry, Value.wellTypedOtherFields, Value.field, RawMap.index,
      RawMap.ofList, List.lookup, Value.isString, Value.isStringList]
  · intro key hkey
    simp only [entryKeys, List.mem_cons, List.mem_singleton, List.not_mem_nil, or_false,
      not_or] at hkey
    obtain ⟨h1, h2, h3, h4, h5, h6, h7⟩ := hkey
    simp only [rawEntry, Value.lookup, RawMap.ofList, List.lookup, beq_false_of_ne h1,
      beq_false_of_ne h2, beq_false_of_ne h3, beq_false_of_ne h4, beq_false_of_ne h5,
      beq_false_of_ne h6, beq_false_of_ne h7]

/-- The round trip of one raw entry of the fixed shape whose UUID strings are
canonical gives the entry back, without `application_id` when that was empty. -/
theorem roundtrip_entry_canonical {v : Value} (h : v.exactEntry) (hc : v.canonicalIds = true) :
    Value.map (flattenAccessPolicy (typedOf v)) = v.dropEmptyApplicationId := by
  obtain ⟨hw, hkeys⟩ := h
  obtain ⟨m, t, o, a, c, k, s, st, rfl, ht, ho, ha, hcp, hkp, hsp, hstp⟩ :=
    Value.fields_of_wellTypedEntry hw
  simp only [Value.canonicalIds, Value.field, RawMap.index_of_eq_some ht,
    RawMap.index_of_eq_some ha, Value.getString, Bool.and_eq_true, Bool.or_eq_true,
    beq_iff_eq] at hc
  obtain ⟨hct, hca⟩ := hc
  have hfun : flattenAccessPolicy (typedOf (Value.map m)) =
      if a = "" then RawMap.erase m "application_id" else m := by
    funext key
    rw [flattenAccessPolicy_typedOf ht ho ha hcp hkp hsp hstp]
    by_cases h1 : key = "tenant_id"
    · subst h1
      by_cases hae : a = "" <;>
        simp [hae, RawMap.erase, ht, uuid.String_FromStringOrNil_of_canonical hct]
    by_cases h2 : key = "application_id"
    · subst h2
      by_cases hae : a = ""
      · simp [hae, RawMap.erase]
      · have hca2 : isCanonicalUUIDString a = true := by
          rcases hca with hca | hca
          · exact absurd hca hae
          · exact hca
        simp [hae, ha, uuid.String_FromStringOrNil_of_canonical hca2]
    by_cases h3 : key ∈ entryKeys
    · by_cases hae : a = "" <;> simp [h1, h2, h3, hae, RawMap.erase]
    · have hnone : m key = none := hkeys key h3
      by_cases hae : a = "" <;> simp [h1, h2, h3, hae, RawMap.erase, hnone]
  simp only [Value.dropEmptyApplicationId, Value.field, RawMap.index_of_eq_some ha,
    Value.getString, hfun]
  by_cases hae : a = "" <;> simp [hae]


/-! ## Lemmas: validation -/

theorem strings.ToLower_eq_iff (toLower : Char → Char) (s t : String) :
    strings.ToLower toLower s = strings.ToLower toLower t ↔ equalIgnoringCase toLower s t := by
  obtain ⟨l⟩ := s
  obtain ⟨l'⟩ := t
  simp only [strings.ToLower, String.ext_iff, equalIgnoringCase]
  induction l generalizing l' with
  | nil => cases l' <;> simp
  | cons a tl ih => cases l' <;> simp [ih]

theorem validation.StringInSliceLoop_true_iff (toLower : Char → Char) (v : String)
    (valid : List String) :
    validation.StringInSliceLoop toLower true v valid = true ↔
      ∃ w ∈ valid, strings.ToLower toLower v = strings.ToLower toLower w := by
  induction valid with
  | nil => simp [validation.StringInSliceLoop]
  | cons a tl ih =>
    simp only [validation.StringInSliceLoop, Bool.true_and, List.mem_cons, exists_eq_or_imp]
    by_cases h : strings.ToLower toLower v = strings.ToLower toLower a
    · simp [h]
    · have hne : v ≠ a := fun hva => h (by rw [hva])
      simp [h, hne, ih]

theorem strings.ToLower_congr {f g : Char → Char} (s : String)
    (h : ∀ c ∈ s.data, f c = g c) : strings.ToLower f s = strings.ToLower g s := by
  simp only [strings.ToLower, String.ext_iff]
  exact List.map_congr_left h

theorem validation.StringInSliceLoop_congr {f g : Char → Char} (ignoreCase : Bool) (v : String)
    (valid : List String) (hv : ∀ c ∈ v.data, f c = g c)
    (hvalid : ∀ w ∈ valid, ∀ c ∈ w.data, f c = g c) :
    validation.StringInSliceLoop f ignoreCase v valid =
      validation.StringInSliceLoop g ignoreCase v valid := by
  induction valid with
  | nil => rfl
  | cons a tl ih =>
    simp only [validation.StringInSliceLoop, strings.ToLower_congr v hv,
      strings.ToLower_congr a (hvalid a (List.mem_cons_self _ _)),
      ih (fun w hw => hvalid w (List.mem_cons_of_mem _ hw))]

theorem Category.validateFunc_eq (toLower : Char → Char) (c : Category) :
    (c.schema toLower).Elem.ValidateFunc = validation.StringInSlice toLower c.vocabulary true := by
  cases c <;> rfl

theorem Category.accepts_eq (toLower : Char → Char) (c : Category) (t k : String) :
    c.accepts toLower t k = validation.StringInSliceLoop toLower true t c.vocabulary := by
  simp only [Category.accepts, Category.validateFunc_eq, validation.StringInSlice]
  cases validation.StringInSliceLoop toLower true t c.vocabulary <;> simp

theorem Category.vocabulary_ascii (c : Category) :
    ∀ w ∈ c.vocabulary, ∀ ch ∈ w.data, ch.toNat < 128 := by
  cases c <;> decide

/-! ## Lemmas: encoding typed entries -/

theorem uuid.String_length (u : uuid.UUID) : u.String.length = 36 := by
  obtain ⟨bs, hsize⟩ := u
  have n1 : (bs.take 4).length = 4 := by simp [hsize]
  have n2 : ((bs.drop 4).take 2).length = 2 := by simp [hsize]
  have n3 : ((bs.drop 6).take 2).length = 2 := by simp [hsize]
  have n4 : ((bs.drop 8).take 2).length = 2 := by simp [hsize]
  have n5 : (bs.drop 10).length = 6 := by simp [hsize]
  simp only [uuid.UUID.String, String.length, List.length_append, List.length_cons,
    hex.Encode_length, n1, n2, n3, n4, n5]

theorem uuid.String_ne_empty (u : uuid.UUID) : u.String ≠ "" := by
  intro h
  have := uuid.String_length u
  rw [h] at this
  exact absurd this (by decide)

/-- The raw map encoded from a typed entry, key by key. -/
theorem flattenAccessPolicy_keys (e : keyvault.AccessPolicyEntry) :
    flattenAccessPolicy e "tenant_id" = e.TenantID.map (fun u => Value.str u.String) ∧
    flattenAccessPolicy e "object_id" = e.ObjectID.map Value.str ∧
    flattenAccessPolicy e "application_id" =
      e.ApplicationID.map (fun u => Value.str u.String) ∧
    flattenAccessPolicy e "certificate_permissions" =
      e.Permissions.map (fun p => Value.list (flattenCertificatePermissions p.Certificates)) ∧
    flattenAccessPolicy e "key_permissions" =
      e.Permissions.map (fun p => Value.list (flattenKeyPermissions p.Keys)) ∧
    flattenAccessPolicy e "secret_permissions" =
      e.Permissions.map (fun p => Value.list (flattenSecretPermissions p.Secrets)) ∧
    flattenAccessPolicy e "storage_permissions" =
      e.Permissions.map (fun p => Value.list (flattenStoragePermissions p.Storage)) := by
  obtain ⟨t, o, a, p⟩ := e
  cases t <;> cases o <;> cases a <;> cases p <;>
    simp [flattenAccessPolicy, RawMap.set, RawMap.empty]

theorem flattenPermissions_some (l : List String) :
    flattenCertificatePermissions (some l) = l.map Value.str ∧
    flattenKeyPermissions (some l) = l.map Value.str ∧
    flattenSecretPermissions (some l) = l.map Value.str ∧
    flattenStoragePermissions (some l) = l.map Value.str := by
  simp [flattenCertificatePermissions, flattenKeyPermissions, flattenSecretPermissions,
    flattenStoragePermissions, flattenPermissionsLoop_eq]

theorem expandAccessPoliciesLoop_of_ok (f : Value → keyvault.AccessPolicyEntry) (x : List Value)
    (acc : List keyvault.AccessPolicyEntry) (h : ∀ v ∈ x, expandAccessPolicy v = .ok (f v)) :
    expandAccessPoliciesLoop x acc = .ok (acc ++ x.map f) := by
  induction x generalizing acc with
  | nil => simp [expandAccessPoliciesLoop]
  | cons a t ih =>
    have ht : ∀ v ∈ t, expandAccessPolicy v = .ok (f v) :=
      fun v hv => h v (List.mem_cons_of_mem _ hv)
    simp [expandAccessPoliciesLoop, h a (List.mem_cons_self _ _), ih _ ht]

/-- Decoding the raw map encoded from a fully populated typed entry gives the
entry back. -/
theorem expandAccessPolicy_flattenAccessPolicy (e : keyvault.AccessPolicyEntry)
    (h : fullyPopulated e = true) :
    expandAccessPolicy (Value.map (flattenAccessPolicy e)) = .ok e := by
  obtain ⟨t, o, a, p⟩ := e
  cases t with
  | none => simp [fullyPopulated] at h
  | some t =>
  cases o with
  | none => simp [fullyPopulated] at h
  | some o =>
  cases a with
  | none => simp [fullyPopulated] at h
  | some a =>
  cases p with
  | none => simp [fullyPopulated] at h
  | some p =>
  obtain ⟨k, s, c, st⟩ := p
  cases k with
  | none => simp [fullyPopulated] at h
  | some k =>
  cases s with
  | none => simp [fullyPopulated] at h
  | some s =>
  cases c with
  | none => simp [fullyPopulated] at h
  | some c =>
  cases st with
  | none => simp [fullyPopulated] at h
  | some st =>
  have hk := flattenAccessPolicy_keys ⟨some t, some o, some a, some ⟨some k, some s, some c, some st⟩⟩
  simp only [Option.map_some', (flattenPermissions_some c).1, (flattenPermissions_some k).2.1,
    (flattenPermissions_some s).2.2.1, (flattenPermissions_some st).2.2.2] at hk
  obtain ⟨h1, h2, h3, h4, h5, h6, h7⟩ := hk
  rw [expandAccessPolicy_fields h1 h2 h3 h4 h5 h6 h7]
  simp [uuid.String_ne_empty, uuid.FromStringOrNil_of_some (uuid.FromString_String _)]

theorem expandAccessPoliciesLoop_map_of_ok (g : keyvault.AccessPolicyEntry → Value)
    (p acc : List keyvault.AccessPolicyEntry) (h : ∀ e ∈ p, expandAccessPolicy (g e) = .ok e) :
    expandAccessPoliciesLoop (p.map g) acc = .ok (acc ++ p) := by
  induction p generalizing acc with
  | nil => simp [expandAccessPoliciesLoop]
  | cons a t ih =>
    have ht : ∀ e ∈ t, expandAccessPolicy (g e) = .ok e :=
      fun e he => h e (List.mem_cons_of_mem _ he)
    simp [expandAccessPoliciesLoop, h a (List.mem_cons_self _ _), ih _ ht]

/-- Decoding the encoding of a list of fully populated typed entries gives the
list back. -/
theorem expandAccessPolicies_flattenAccessPolicies (p : List keyvault.AccessPolicyEntry)
    (h : ∀ e ∈ p, fullyPopulated e = true) :
    expandAccessPolicies ((flattenAccessPolicies (some p)).map Value.map) = .ok (some p) := by
  rw [flattenAccessPolicies_some, List.map_map]
  simp only [expandAccessPolicies]
  rw [expandAccessPoliciesLoop_map_of_ok (Value.map ∘ flattenAccessPolicy) p []
    (fun e he => expandAccessPolicy_flattenAccessPolicy e (h e he))]
  rfl

theorem fullyPopulated_typedOf {v : Value} (h : (v.field "application_id").getString ≠ "") :
    fullyPopulated (typedOf v) = true := by
  simp [fullyPopulated, typedOf, h]

theorem permissionSet_typedOf (v : Value) (c : Category) :
    permissionSet (typedOf v) c = some (v.rawTokens c) := by
  cases c <;> rfl

/-! ## Lemmas: decoding succeeds only on well-formed entries -/

theorem Except.bind_eq_ok_iff {ε α β : Type} (x : Except ε α) (f : α → Except ε β) (b : β) :
    Except.bind x f = .ok b ↔ ∃ a, x = .ok a ∧ f a = .ok b := by
  cases x <;> simp [Except.bind]

theorem Value.assertString_eq_ok_iff (v : Value) (s : String) :
    v.assertString = .ok s ↔ v = Value.str s := by
  cases v <;> simp [Value.assertString]

theorem Value.assertSlice_eq_ok_iff (v : Value) (l : List Value) :
    v.assertSlice = .ok l ↔ v = Value.list l := by
  cases v <;> simp [Value.assertSlice]

theorem Value.assertMap_eq_ok_iff (v : Value) (m : RawMap) :
    v.assertMap = .ok m ↔ v = Value.map m := by
  cases v <;> simp [Value.assertMap]

theorem expandPermissionsLoop_ok {l : List Value} {acc out : List String}
    (h : expandPermissionsLoop l acc = .ok out) : l.all Value.isString = true := by
  induction l generalizing acc with
  | nil => rfl
  | cons a t ih =>
    cases a with
    | str s =>
      simp only [expandPermissionsLoop, Value.assertString] at h
      simp [Value.isString, ih h]
    | _ => simp [expandPermissionsLoop, Value.assertString] at h

/-- Decoding succeeds only on structurally well-formed entries. -/
theorem wellTypedEntry_of_expandAccessPolicy_ok {v : Value} {e : keyvault.AccessPolicyEntry}
    (h : expandAccessPolicy v = .ok e) : v.wellTypedEntry = true := by
  simp only [expandAccessPolicy, bind, Except.bind_eq_ok_iff, Value.assertMap_eq_ok_iff,
    Value.assertSlice_eq_ok_iff, Value.assertString_eq_ok_iff] at h
  obtain ⟨m, rfl, lc, hc, lk, hk, ls, hs, lst, hst, c, hec, k, hek, s, hes, st, hest, t, ht,
    o, ho, happ⟩ := h
  have ac : lc.all Value.isString = true := by
    simp only [expandCertificatePermissions] at hec
    split at hec
    · simp at hec
    · next out hout => exact expandPermissionsLoop_ok hout
  have ak : lk.all Value.isString = true := by
    simp only [expandKeyPermissions] at hek
    split at hek
    · simp at hek
    · next out hout => exact expandPermissionsLoop_ok hout
  have as : ls.all Value.isString = true := by
    simp only [expandSecretPermissions] at hes
    split at hes
    · simp at hes
    · next out hout => exact expandPermissionsLoop_ok hout
  have ast : lst.all Value.isString = true := by
    simp only [expandStoragePermissions] at hest
    split at hest
    · simp at hest
    · next out hout => exact expandPermissionsLoop_ok hout
  have ha : ∃ a, RawMap.index m "application_id" = Value.str a := by
    cases hv : RawMap.index m "application_id" with
    | str a => exact ⟨a, rfl⟩
    | _ =>
      simp [hv, Value.neEmptyString, Except.bind_eq_ok_iff, Value.assertString_eq_ok_iff,
        bind] at happ
  obtain ⟨a, ha⟩ := ha
  simp [Value.wellTypedEntry, Value.wellTypedOtherFields, Value.field, hc, hk, hs, hst, ht, ho,
    Value.isString, Value.isStringList, ac, ak, as, ast, ha]

theorem wellTypedEntry_of_expandAccessPoliciesLoop_ok {x : List Value}
    {acc out : List keyvault.AccessPolicyEntry} (h : expandAccessPoliciesLoop x acc = .ok out) :
    ∀ v ∈ x, v.wellTypedEntry = true := by
  induction x generalizing acc with
  | nil => simp
  | cons a t ih =>
    simp only [expandAccessPoliciesLoop] at h
    split at h
    · simp at h
    · next policy hp =>
      intro v hv
      rcases List.mem_cons.mp hv with rfl | hv
      · exact wellTypedEntry_of_expandAccessPolicy_ok hp
      · exact ih h v hv

/-- Whatever the raw list, when decoding succeeds the list was structurally well
formed and the result is the element-wise map of `typedOf`. -/
theorem expandAccessPolicies_ok {x : List Value} {out : List keyvault.AccessPolicyEntry}
    (h : expandAccessPolicies x = .ok (some out)) :
    (∀ v ∈ x, v.wellTypedEntry = true) ∧ out = x.map typedOf := by
  have hw : ∀ v ∈ x, v.wellTypedEntry = true := by
    simp only [expandAccessPolicies] at h
    split at h
    · simp at h
    · next l hl => exact wellTypedEntry_of_expandAccessPoliciesLoop_ok hl
  refine ⟨hw, ?_⟩
  rw [expandAccessPolicies_wellTyped x hw] at h
  simpa using h.symm

/-! ## Lemmas: the spellings of a UUID -/

set_option maxRecDepth 100000 in
theorem hex.digits_of_byte_forms :
    ∀ v : Byte,
      isLowerHexDigit (hex.hextable.getD (v.val >>> 4) '0') = true ∧
      isLowerHexDigit (hex.hextable.getD (v.val &&& 0x0f) '0') = true ∧
      hex.fromHexChar (hex.hextable.getD (v.val >>> 4) '0').toUpper.toNat = some (v.val >>> 4) ∧
      hex.fromHexChar (hex.hextable.getD (v.val &&& 0x0f) '0').toUpper.toNat =
        some (v.val &&& 0x0f) ∧
      (hex.hextable.getD (v.val >>> 4) '0').toUpper.toNat < 128 ∧
      (hex.hextable.getD (v.val &&& 0x0f) '0').toUpper.toNat < 128 := by
  decide

theorem hex.Encode_lowerHex (bs : List Byte) :
    ∀ c ∈ hex.Encode bs, isLowerHexDigit c = true := by
  induction bs with
  | nil => simp [hex.Encode]
  | cons v rest ih =>
    obtain ⟨h1, h2, _⟩ := hex.digits_of_byte_forms v
    intro c hc
    simp only [hex.Encode, List.mem_cons] at hc
    rcases hc with rfl | rfl | hc
    · exact h1
    · exact h2
    · exact ih c hc

theorem hex.Encode_append (a b : List Byte) :
    hex.Encode (a ++ b) = hex.Encode a ++ hex.Encode b := by
  induction a with
  | nil => rfl
  | cons v rest ih => simp [hex.Encode, ih]

/-- Five groups of lower-case hexadecimal digits, of 8, 4, 4, 4 and 12 digits,
separated by dashes, make a canonical UUID string. -/
theorem isCanonicalUUIDString_of_groups {g1 g2 g3 g4 g5 : List Char}
    (l1 : g1.length = 8) (l2 : g2.length = 4) (l3 : g3.length = 4) (l4 : g4.length = 4)
    (l5 : g5.length = 12)
    (a1 : ∀ c ∈ g1, isLowerHexDigit c = true) (a2 : ∀ c ∈ g2, isLowerHexDigit c = true)
    (a3 : ∀ c ∈ g3, isLowerHexDigit c = true) (a4 : ∀ c ∈ g4, isLowerHexDigit c = true)
    (a5 : ∀ c ∈ g5, isLowerHexDigit c = true) :
    isCanonicalUUIDString ⟨g1 ++ '-' :: (g2 ++ '-' :: (g3 ++ '-' :: (g4 ++ '-' :: g5)))⟩ = true := by
  have e4 : List.drop 5 (g4 ++ '-' :: g5) = g5 := by
    rw [show (5 : Nat) = 4 + 1 from rfl, ← List.drop_drop, List.drop_left' l4]; rfl
  have e3 : List.drop 5 (g3 ++ '-' :: (g4 ++ '-' :: g5)) = g4 ++ '-' :: g5 := by
    rw [show (5 : Nat) = 4 + 1 from rfl, ← List.drop_drop, List.drop_left' l3]; rfl
  have e2 : List.drop 5 (g2 ++ '-' :: (g3 ++ '-' :: (g4 ++ '-' :: g5))) =
      g3 ++ '-' :: (g4 ++ '-' :: g5) := by
    rw [show (5 : Nat) = 4 + 1 from rfl, ← List.drop_drop, List.drop_left' l2]; rfl
  have e1 : List.drop 9 (g1 ++ '-' :: (g2 ++ '-' :: (g3 ++ '-' :: (g4 ++ '-' :: g5)))) =
      g2 ++ '-' :: (g3 ++ '-' :: (g4 ++ '-' :: g5)) := by
    rw [show (9 : Nat) = 8 + 1 from rfl, ← List.drop_drop, List.drop_left' l1]; rfl
  have d14 : List.drop 14 (g1 ++ '-' :: (g2 ++ '-' :: (g3 ++ '-' :: (g4 ++ '-' :: g5)))) =
      g3 ++ '-' :: (g4 ++ '-' :: g5) := by
    rw [show (14 : Nat) = 9 + 5 from rfl, ← List.drop_drop, e1, e2]
  have d19 : List.drop 19 (g1 ++ '-' :: (g2 ++ '-' :: (g3 ++ '-' :: (g4 ++ '-' :: g5)))) =
      g4 ++ '-' :: g5 := by
    rw [show (19 : Nat) = 14 + 5 from rfl, ← List.drop_drop, d14, e3]
  have d24 : List.drop 24 (g1 ++ '-' :: (g2 ++ '-' :: (g3 ++ '-' :: (g4 ++ '-' :: g5)))) =
      g5 := by
    rw [show (24 : Nat) = 19 + 5 from rfl, ← List.drop_drop, d19, e4]
  have c1 : (g1 ++ '-' :: (g2 ++ '-' :: (g3 ++ '-' :: (g4 ++ '-' :: g5)))).getD 8 ' ' = '-' := by
    rw [List.getD_append_right _ _ _ _ (by omega), l1]; rfl
  have c2 : (g1 ++ '-' :: (g2 ++ '-' :: (g3 ++ '-' :: (g4 ++ '-' :: g5)))).getD 13 ' ' = '-' := by
    rw [List.getD_append_right _ _ _ _ (by omega), l1]
    show (g2 ++ '-' :: (g3 ++ '-' :: (g4 ++ '-' :: g5))).getD 4 ' ' = '-'
    rw [List.getD_append_right _ _ _ _ (by omega), l2]; rfl
  have c3 : (g1 ++ '-' :: (g2 ++ '-' :: (g3 ++ '-' :: (g4 ++ '-' :: g5)))).getD 18 ' ' = '-' := by
    rw [List.getD_append_right _ _ _ _ (by omega), l1]
    show (g2 ++ '-' :: (g3 ++ '-' :: (g4 ++ '-' :: g5))).getD 9 ' ' = '-'
    rw [List.getD_append_right _ _ _ _ (by omega), l2]
    show (g3 ++ '-' :: (g4 ++ '-' :: g5)).getD 4 ' ' = '-'
    rw [List.getD_append_right _ _ _ _ (by omega), l3]; rfl
  have c4 : (g1 ++ '-' :: (g2 ++ '-' :: (g3 ++ '-' :: (g4 ++ '-' :: g5)))).getD 23 ' ' = '-' := by
    rw [List.getD_append_right _ _ _ _ (by omega), l1]
    show (g2 ++ '-' :: (g3 ++ '-' :: (g4 ++ '-' :: g5))).getD 14 ' ' = '-'
    rw [List.getD_append_right _ _ _ _ (by omega), l2]
    show (g3 ++ '-' :: (g4 ++ '-' :: g5)).getD 9 ' ' = '-'
    rw [List.getD_append_right _ _ _ _ (by omega), l3]
    show (g4 ++ '-' :: g5).getD 4 ' ' = '-'
    rw [List.getD_append_right _ _ _ _ (by omega), l4]; rfl
  simp only [isCanonicalUUIDString, e1, d14, d19, d24, c1, c2, c3, c4, List.take_left' l1,
    List.take_left' l2, List.take_left' l3, List.take_left' l4, List.length_append,
    List.length_cons, l1, l2, l3, l4, l5, Bool.and_eq_true, beq_iff_eq, List.all_eq_true]
  exact ⟨⟨⟨⟨⟨⟨⟨⟨⟨trivial, a1⟩, trivial⟩, a2⟩, trivial⟩, a3⟩, trivial⟩, a4⟩, trivial⟩, a5⟩

theorem uuid.String_ascii (u : uuid.UUID) : ∀ c ∈ u.String.data, c.toNat < 128 := by
  intro c hc
  simp only [uuid.UUID.String, List.mem_append, List.mem_cons] at hc
  rcases hc with hc | rfl | hc | rfl | hc | rfl | hc | rfl | hc
  · exact hex.Encode_ascii _ c hc
  · decide
  · exact hex.Encode_ascii _ c hc
  · decide
  · exact hex.Encode_ascii _ c hc
  · decide
  · exact hex.Encode_ascii _ c hc
  · decide
  · exact hex.Encode_ascii _ c hc

/-- The canonical string of a UUID is a canonical UUID string. -/
theorem uuid.String_canonical (u : uuid.UUID) : isCanonicalUUIDString u.String = true := by
  obtain ⟨bs, hsize⟩ := u
  have n1 : (bs.take 4).length = 4 := by simp [hsize]
  have n2 : ((bs.drop 4).take 2).length = 2 := by simp [hsize]
  have n3 : ((bs.drop 6).take 2).length = 2 := by simp [hsize]
  have n4 : ((bs.drop 8).take 2).length = 2 := by simp [hsize]
  have n5 : (bs.drop 10).length = 6 := by simp [hsize]
  exact isCanonicalUUIDString_of_groups (by rw [hex.Encode_length, n1])
    (by rw [hex.Encode_length, n2]) (by rw [hex.Encode_length, n3])
    (by rw [hex.Encode_length, n4]) (by rw [hex.Encode_length, n5])
    (hex.Encode_lowerHex _) (hex.Encode_lowerHex _) (hex.Encode_lowerHex _)
    (hex.Encode_lowerHex _) (hex.Encode_lowerHex _)

theorem stringBytes_append (a b : List Char) :
    stringBytes ⟨a ++ b⟩ = stringBytes ⟨a⟩ ++ stringBytes ⟨b⟩ := by
  simp [stringBytes, List.flatMap_append]

/-- The bytes of the canonical string of a UUID: 36 of them, one per character,
which `decodeCanonical` decodes to the bytes of the UUID. -/
theorem uuid.decodeCanonical_String (u : uuid.UUID) :
    stringBytes u.String = u.String.data.map Char.toNat ∧
    (stringBytes u.String).length = 36 ∧
    uuid.decodeCanonical (stringBytes u.String) = some u.bytes := by
  have hb : stringBytes u.String = u.String.data.map Char.toNat :=
    stringBytes_of_ascii u.String.data (uuid.String_ascii u)
  have hlen : (stringBytes u.String).length = 36 := by
    rw [hb, List.length_map]
    exact uuid.String_length u
  refine ⟨hb, hlen, ?_⟩
  have h := uuid.FromString_String u
  simp only [uuid.FromString, uuid.UnmarshalText, hlen] at h
  simp only [show ¬ ((36 : Nat) = 32) by decide, if_false, if_true] at h
  split at h
  · exact absurd h (by simp)
  · next bs hbs =>
    rw [hbs]
    split at h
    · next hsz =>
      simp only [Option.some.injEq] at h
      rw [← h]
    · exact absurd h (by simp)

theorem uuid.FromString_of_UnmarshalText {s : String} {u : uuid.UUID}
    (h : uuid.UnmarshalText (stringBytes s) = some u.bytes) : uuid.FromString s = some u := by
  simp only [uuid.FromString, h, u.size, dite_true]

/-- The canonical string of a UUID between braces parses to the UUID. -/
theorem uuid.FromString_bracedForm (u : uuid.UUID) :
    uuid.FromString (bracedForm u.String) = some u := by
  obtain ⟨hb, hlen, hdec⟩ := uuid.decodeCanonical_String u
  have hbytes : stringBytes (bracedForm u.String) = 123 :: (stringBytes u.String ++ [125]) := by
    have h1 : bracedForm u.String =
        ⟨[Char.ofNat 123] ++ (u.String.data ++ [Char.ofNat 125])⟩ := rfl
    rw [h1, stringBytes_append, stringBytes_append]
    rfl
  apply uuid.FromString_of_UnmarshalText
  have hl : (123 :: (stringBytes u.String ++ [125])).length = 38 := by
    simp [hlen]
  have hlast : (123 :: (stringBytes u.String ++ [125])).getD 37 0 = 125 := by
    show (stringBytes u.String ++ [125]).getD 36 0 = 125
    rw [List.getD_append_right _ _ _ _ (by omega), hlen]; rfl
  have hinner : ((123 :: (stringBytes u.String ++ [125])).take 37).drop 1 =
      stringBytes u.String := by
    show (List.take 36 (stringBytes u.String ++ [125])) = stringBytes u.String
    exact List.take_left' hlen
  rw [hbytes]
  simp only [uuid.UnmarshalText, hl, uuid.decodeBraced, hlast, hinner, uuid.decodePlain, hlen,
    hdec, List.getD_cons_zero]
  simp

/-- The canonical string of a UUID after `urn:uuid:` parses to the UUID. -/
theorem uuid.FromString_urnForm (u : uuid.UUID) :
    uuid.FromString (urnForm u.String) = some u := by
  obtain ⟨hb, hlen, hdec⟩ := uuid.decodeCanonical_String u
  have hbytes : stringBytes (urnForm u.String) = uuid.urnPrefix ++ stringBytes u.String := by
    simp only [urnForm]
    rw [stringBytes_append]
    rfl
  have hp : uuid.urnPrefix.length = 9 := by decide
  apply uuid.FromString_of_UnmarshalText
  have hl : (uuid.urnPrefix ++ stringBytes u.String).length = 45 := by
    rw [List.length_append, hp, hlen]
  rw [hbytes]
  simp only [uuid.UnmarshalText, hl, uuid.decodeURN, List.take_left' hp, List.drop_left' hp,
    uuid.decodePlain, hlen, hdec]
  simp

theorem filter_dash_of_lowerHex (g : List Char) (h : ∀ c ∈ g, isLowerHexDigit c = true) :
    g.filter (fun c => c != '-') = g := by
  rw [List.filter_eq_self]
  intro c hc
  have := h c hc
  simp only [bne_iff_ne, ne_eq]
  intro hd
  rw [hd] at this
  exact absurd this (by decide)

/-- The canonical string of a UUID without its dashes parses to the UUID. -/
theorem uuid.FromString_dashlessForm (u : uuid.UUID) :
    uuid.FromString (dashlessForm u.String) = some u := by
  have hdata : (dashlessForm u.String).data = hex.Encode u.bytes := by
    obtain ⟨bs, hsize⟩ := u
    simp only [dashlessForm, uuid.UUID.String, List.filter_append, List.filter_cons,
      filter_dash_of_lowerHex _ (hex.Encode_lowerHex _)]
    simp only [show (('-' : Char) != '-') = false by decide, Bool.false_eq_true, if_false,
      ← hex.Encode_append]
    congr 1
    have k4 := List.take_append_drop 2 (bs.drop 8)
    have k3 := List.take_append_drop 2 (bs.drop 6)
    have k2 := List.take_append_drop 2 (bs.drop 4)
    have k1 := List.take_append_drop 4 bs
    simp only [List.drop_drop] at k4 k3 k2
    rw [k4, k3, k2, k1]
  have hs : dashlessForm u.String = ⟨hex.Encode u.bytes⟩ := String.ext hdata
  have hbytes : stringBytes (dashlessForm u.String) = (hex.Encode u.bytes).map Char.toNat := by
    rw [hs]
    exact stringBytes_of_ascii _ (hex.Encode_ascii _)
  apply uuid.FromString_of_UnmarshalText
  have hl : ((hex.Encode u.bytes).map Char.toNat).length = 32 := by
    rw [List.length_map, hex.Encode_length, u.size]
  rw [hbytes]
  simp only [uuid.UnmarshalText, hl, if_true, uuid.decodeHashLike, hex.Decode_Encode]

/-- The canonical string of a UUID without its dashes, after `urn:uuid:`, parses
to the UUID. -/
theorem uuid.FromString_urnForm_dashlessForm (u : uuid.UUID) :
    uuid.FromString (urnForm (dashlessForm u.String)) = some u := by
  have hdata : (dashlessForm u.String).data = hex.Encode u.bytes := by
    obtain ⟨bs, hsize⟩ := u
    simp only [dashlessForm, uuid.UUID.String, List.filter_append, List.filter_cons,
      filter_dash_of_lowerHex _ (hex.Encode_lowerHex _)]
    simp only [show (('-' : Char) != '-') = false by decide, Bool.false_eq_true, if_false,
      ← hex.Encode_append]
    congr 1
    have k4 := List.take_append_drop 2 (bs.drop 8)
    have k3 := List.take_append_drop 2 (bs.drop 6)
    have k2 := List.take_append_drop 2 (bs.drop 4)
    have k1 := List.take_append_drop 4 bs
    simp only [List.drop_drop] at k4 k3 k2
    rw [k4, k3, k2, k1]
  have hbytes : stringBytes (urnForm (dashlessForm u.String)) =
      uuid.urnPrefix ++ (hex.Encode u.bytes).map Char.toNat := by
    simp only [urnForm]
    rw [stringBytes_append, hdata, stringBytes_of_ascii _ (hex.Encode_ascii _)]
    rfl
  have hp : uuid.urnPrefix.length = 9 := by decide
  have hl : ((hex.Encode u.bytes).map Char.toNat).length = 32 := by
    rw [List.length_map, hex.Encode_length, u.size]
  have hl2 : (uuid.urnPrefix ++ (hex.Encode u.bytes).map Char.toNat).length = 41 := by
    rw [List.length_append, hp, hl]
  apply uuid.FromString_of_UnmarshalText
  rw [hbytes]
  simp only [uuid.UnmarshalText, hl2, uuid.decodeURN, List.take_left' hp, List.drop_left' hp,
    uuid.decodePlain, hl, uuid.decodeHashLike, hex.Decode_Encode]
  simp

theorem hex.Decode_Encode_upper (bs : List Byte) :
    hex.Decode (((hex.Encode bs).map Char.toUpper).map Char.toNat) = some bs := by
  induction bs with
  | nil => rfl
  | cons v rest ih =>
    obtain ⟨_, _, h3, h4, _, _⟩ := hex.digits_of_byte_forms v
    obtain ⟨_, _, h5, _, _⟩ := hex.digits_of_byte v
    simp only [hex.Encode, List.map_cons, hex.Decode, h3, h4, h5, ih]

theorem hex.Encode_upper_ascii (bs : List Byte) :
    ∀ c ∈ (hex.Encode bs).map Char.toUpper, c.toNat < 128 := by
  induction bs with
  | nil => simp [hex.Encode]
  | cons v rest ih =>
    obtain ⟨_, _, _, _, h5, h6⟩ := hex.digits_of_byte_forms v
    intro c hc
    simp only [hex.Encode, List.map_cons, List.mem_cons] at hc
    rcases hc with rfl | rfl | hc
    · exact h5
    · exact h6
    · exact ih c hc

/-- The canonical string of a UUID written in upper case parses to the UUID. -/
theorem uuid.FromString_upperCaseForm (u : uuid.UUID) :
    uuid.FromString (upperCaseForm u.String) = some u := by
  obtain ⟨bs, hsize⟩ := u
  have n1 : (bs.take 4).length = 4 := by simp [hsize]
  have n2 : ((bs.drop 4).take 2).length = 2 := by simp [hsize]
  have n3 : ((bs.drop 6).take 2).length = 2 := by simp [hsize]
  have n4 : ((bs.drop 8).take 2).length = 2 := by simp [hsize]
  have n5 : (bs.drop 10).length = 6 := by simp [hsize]
  have hdata : (upperCaseForm (uuid.UUID.String ⟨bs, hsize⟩)).data =
      (hex.Encode (bs.take 4)).map Char.toUpper ++ '-' ::
        ((hex.Encode ((bs.drop 4).take 2)).map Char.toUpper ++ '-' ::
          ((hex.Encode ((bs.drop 6).take 2)).map Char.toUpper ++ '-' ::
            ((hex.Encode ((bs.drop 8).take 2)).map Char.toUpper ++ '-' ::
              (hex.Encode (bs.drop 10)).map Char.toUpper))) := by
    simp only [upperCaseForm, uuid.UUID.String, List.map_append, List.map_cons]
    rfl
  have hascii : ∀ c ∈ (upperCaseForm (uuid.UUID.String ⟨bs, hsize⟩)).data, c.toNat < 128 := by
    intro c hc
    rw [hdata] at hc
    simp only [List.mem_append, List.mem_cons] at hc
    rcases hc with hc | rfl | hc | rfl | hc | rfl | hc | rfl | hc
    · exact hex.Encode_upper_ascii _ c hc
    · decide
    · exact hex.Encode_upper_ascii _ c hc
    · decide
    · exact hex.Encode_upper_ascii _ c hc
    · decide
    · exact hex.Encode_upper_ascii _ c hc
    · decide
    · exact hex.Encode_upper_ascii _ c hc
  have hbytes : stringBytes (upperCaseForm (uuid.UUID.String ⟨bs, hsize⟩)) =
      ((hex.Encode (bs.take 4)).map Char.toUpper).map Char.toNat ++ 45 ::
        (((hex.Encode ((bs.drop 4).take 2)).map Char.toUpper).map Char.toNat ++ 45 ::
          (((hex.Encode ((bs.drop 6).take 2)).map Char.toUpper).map Char.toNat ++ 45 ::
            (((hex.Encode ((bs.drop 8).take 2)).map Char.toUpper).map Char.toNat ++ 45 ::
              ((hex.Encode (bs.drop 10)).map Char.toUpper).map Char.toNat))) := by
    have := stringBytes_of_ascii _ hascii
    rw [show (⟨(upperCaseForm (uuid.UUID.String ⟨bs, hsize⟩)).data⟩ : String) =
      upperCaseForm (uuid.UUID.String ⟨bs, hsize⟩) from rfl] at this
    rw [this, hdata]
    simp only [List.map_append, List.map_cons]
    rfl
  have hlen : (stringBytes (upperCaseForm (uuid.UUID.String ⟨bs, hsize⟩))).length = 36 := by
    rw [hbytes]
    simp only [List.length_append, List.length_cons, List.length_map, hex.Encode_length,
      n1, n2, n3, n4, n5]
  have hjoin : bs.take 4 ++ ((bs.drop 4).take 2 ++ ((bs.drop 6).take 2 ++
      ((bs.drop 8).take 2 ++ bs.drop 10))) = bs := by
    have k4 := List.take_append_drop 2 (bs.drop 8)
    have k3 := List.take_append_drop 2 (bs.drop 6)
    have k2 := List.take_append_drop 2 (bs.drop 4)
    have k1 := List.take_append_drop 4 bs
    simp only [List.drop_drop] at k4 k3 k2
    rw [k4, k3, k2, k1]
  apply uuid.FromString_of_UnmarshalText
  simp only [uuid.UnmarshalText, hlen]
  rw [hbytes]
  have l1 : (((hex.Encode (bs.take 4)).map Char.toUpper).map Char.toNat).length = 8 := by
    simp [hex.Encode_length, n1]
  have l2 : (((hex.Encode ((bs.drop 4).take 2)).map Char.toUpper).map Char.toNat).length = 4 := by
    simp [hex.Encode_length, n2]
  have l3 : (((hex.Encode ((bs.drop 6).take 2)).map Char.toUpper).map Char.toNat).length = 4 := by
    simp [hex.Encode_length, n3]
  have l4 : (((hex.Encode ((bs.drop 8).take 2)).map Char.toUpper).map Char.toNat).length = 4 := by
    simp [hex.Encode_length, n4]
  have l5 : (((hex.Encode (bs.drop 10)).map Char.toUpper).map Char.toNat).length = 12 := by
    simp [hex.Encode_length, n5]
  have := uuid.decodeCanonical_groups l1 l2 l3 l4 l5
    (hex.Decode_Encode_upper _) (hex.Decode_Encode_upper _) (hex.Decode_Encode_upper _)
    (hex.Decode_Encode_upper _) (hex.Decode_Encode_upper _)
  rw [hjoin] at this
  simpa using this

theorem canonicalUUIDString_of_some {s : String} {u : uuid.UUID}
    (h : uuid.FromString s = some u) : canonicalUUIDString s = u.String := by
  simp [canonicalUUIDString, h]

theorem canonicalUUIDString_eq_self_iff {s : String} {u : uuid.UUID}
    (h : uuid.FromString s = some u) :
    canonicalUUIDString s = s ↔ isCanonicalUUIDString s = true := by
  rw [canonicalUUIDString_of_some h]
  constructor
  · intro hs
    rw [← hs]
    exact uuid.String_canonical u
  · intro hc
    obtain ⟨w, hw, hws⟩ := uuid.String_FromString_of_canonical hc
    rw [h] at hw
    rw [Option.some.inj hw, hws]

theorem uuid.String_FromStringOrNil_of_parseable {s : String}
    (h : (uuid.FromString s).isSome = true) :
    (uuid.FromStringOrNil s).String = canonicalUUIDString s := by
  obtain ⟨u, hu⟩ := Option.isSome_iff_exists.mp h
  rw [uuid.FromStringOrNil_of_some hu, canonicalUUIDString_of_some hu]

/-- The round trip of one raw entry of the fixed shape whose UUID strings the
parser accepts gives the entry back with those strings in canonical form, and
without `application_id` when that was empty. -/
theorem roundtrip_entry_parseable {v : Value} (h : v.exactEntry) (hp : v.parseableIds = true) :
    Value.map (flattenAccessPolicy (typedOf v)) = v.canonicalizeIds := by
  obtain ⟨hw, hkeys⟩ := h
  obtain ⟨m, t, o, a, c, k, s, st, rfl, ht, ho, ha, hcp, hkp, hsp, hstp⟩ :=
    Value.fields_of_wellTypedEntry hw
  simp only [Value.parseableIds, Value.field, RawMap.index_of_eq_some ht,
    RawMap.index_of_eq_some ha, Value.getString, Bool.and_eq_true, Bool.or_eq_true,
    beq_iff_eq] at hp
  obtain ⟨hpt, hpa⟩ := hp
  have hfun : flattenAccessPolicy (typedOf (Value.map m)) =
      if a = "" then
        RawMap.erase (RawMap.set m "tenant_id" (Value.str (canonicalUUIDString t)))
          "application_id"
      else
        RawMap.set (RawMap.set m "tenant_id" (Value.str (canonicalUUIDString t)))
          "application_id" (Value.str (canonicalUUIDString a)) := by
    funext key
    rw [flattenAccessPolicy_typedOf ht ho ha hcp hkp hsp hstp]
    by_cases h1 : key = "tenant_id"
    · subst h1
      by_cases hae : a = "" <;>
        simp [hae, RawMap.erase, RawMap.set, uuid.String_FromStringOrNil_of_parseable hpt]
    by_cases h2 : key = "application_id"
    · subst h2
      by_cases hae : a = ""
      · simp [hae, RawMap.erase]
      · have hpa2 : (uuid.FromString a).isSome = true := by
          rcases hpa with hpa | hpa
          · exact absurd hpa hae
          · exact hpa
        simp [hae, RawMap.set, uuid.String_FromStringOrNil_of_parseable hpa2]
    by_cases h3 : key ∈ entryKeys
    · by_cases hae : a = "" <;> simp [h1, h2, h3, hae, RawMap.erase, RawMap.set]
    · have hnone : m key = none := hkeys key h3
      by_cases hae : a = "" <;> simp [h1, h2, h3, hae, RawMap.erase, RawMap.set, hnone]
  simp only [Value.canonicalizeIds, Value.field, RawMap.index_of_eq_some ha,
    RawMap.index_of_eq_some ht, Value.getString, hfun]
  by_cases hae : a = "" <;> simp [hae]

/-! ## The claims -/

/-- C1, as stated, fails: the tenant id of `upperCaseEntry` is a UUID string the
parser accepts, written in upper case; the round trip gives it back in lower
case, so the result is not the input. -/
theorem roundtrip_changes_noncanonical_uuid :
    upperCaseEntry.exactEntry ∧
    upperCaseEntry.field "tenant_id" = Value.str "AAAAAAAA-AAAA-AAAA-AAAA-AAAAAAAAAAAA" ∧
    (uuid.FromString "AAAAAAAA-AAAA-AAAA-AAAA-AAAAAAAAAAAA").isSome = true ∧
    upperCaseEntry.field "application_id" = Value.str "" ∧
    ∃ out r, expandAccessPolicies [upperCaseEntry] = .ok out ∧
      flattenAccessPolicies out = [r] ∧
      r "tenant_id" = some (Value.str "aaaaaaaa-aaaa-aaaa-aaaa-aaaaaaaaaaaa") ∧
      (flattenAccessPolicies out).map Value.map ≠
        [upperCaseEntry].map Value.dropEmptyApplicationId := by
  have hw : upperCaseEntry.wellTypedEntry = true := by decide
  have hx : ∀ w ∈ [upperCaseEntry], w.wellTypedEntry = true := by simpa using hw
  have ht : flattenAccessPolicy (typedOf upperCaseEntry) "tenant_id" =
      some (Value.str "aaaaaaaa-aaaa-aaaa-aaaa-aaaaaaaaaaaa") := by
    have hlower : (uuid.FromStringOrNil "AAAAAAAA-AAAA-AAAA-AAAA-AAAAAAAAAAAA").String =
        "aaaaaaaa-aaaa-aaaa-aaaa-aaaaaaaaaaaa" := by decide
    rw [(roundtrip_entry_ids hw).1]
    show some (Value.str (uuid.FromStringOrNil "AAAAAAAA-AAAA-AAAA-AAAA-AAAAAAAAAAAA").String) = _
    rw [hlower]
  refine ⟨rawEntry_exactEntry _ _ _ _ _ _ _, rfl, by decide, rfl,
    _, flattenAccessPolicy (typedOf upperCaseEntry), expandAccessPolicies_wellTyped _ hx,
    by simp [flattenAccessPolicies_some], ht, ?_⟩
  intro heq
  simp only [flattenAccessPolicies_some, List.map_cons, List.map_nil, List.cons.injEq,
    and_true] at heq
  have hdrop : upperCaseEntry.dropEmptyApplicationId =
      Value.map (RawMap.erase (RawMap.ofList
        [("tenant_id", Value.str "AAAAAAAA-AAAA-AAAA-AAAA-AAAAAAAAAAAA"),
         ("object_id", Value.str "obj-1"), ("application_id", Value.str ""),
         ("certificate_permissions", Value.list []),
         ("key_permissions", Value.list [Value.str "get"]),
         ("secret_permissions", Value.list []),
         ("storage_permissions", Value.list [])]) "application_id") := rfl
  rw [hdrop] at heq
  injection heq with heq
  have h1 := congrFun heq "tenant_id"
  rw [ht] at h1
  simp [RawMap.erase, RawMap.ofList, List.lookup] at h1

/-- C1, amended: round trip on well-formed input. For every list of raw entries of
the fixed shape in which every `tenant_id`, and every non-empty
`application_id`, is a UUID string the parser accepts,
`flattenAccessPolicies (expandAccessPolicies x)` equals `x` entry for entry and
field for field, except that an entry whose `application_id` is the empty string
comes back without the `application_id` key and that every UUID string comes
back as the canonical string of the UUID it denotes. That canonical string is
the string as written exactly when the string was already canonical (36
characters, lower-case hexadecimal digits in groups of 8-4-4-4-12 separated by
dashes), so on a list whose UUID strings are all canonical the round trip gives
the list back, up to the dropped empty `application_id`. Every canonical string
is accepted, and so is the canonical string of any UUID written in upper case,
between braces, after `urn:uuid:`, without dashes, or without dashes after
`urn:uuid:`, each denoting that UUID. -/
theorem roundtrip_canonicalizes_uuid_strings (x : List Value)
    (h : ∀ v ∈ x, v.exactEntry ∧ v.parseableIds = true) :
    (∃ out, expandAccessPolicies x = .ok out ∧
      (flattenAccessPolicies out).map Value.map = x.map Value.canonicalizeIds ∧
      ((∀ v ∈ x, v.canonicalIds = true) →
        (flattenAccessPolicies out).map Value.map = x.map Value.dropEmptyApplicationId)) ∧
    (∀ (s : String) (u : uuid.UUID), uuid.FromString s = some u →
      canonicalUUIDString s = u.String ∧ isCanonicalUUIDString u.String = true ∧
      (canonicalUUIDString s = s ↔ isCanonicalUUIDString s = true)) ∧
    (∀ s : String, isCanonicalUUIDString s = true → (uuid.FromString s).isSome = true) ∧
    ∀ u : uuid.UUID,
      uuid.FromString (upperCaseForm u.String) = some u ∧
      uuid.FromString (bracedForm u.String) = some u ∧
      uuid.FromString (urnForm u.String) = some u ∧
      uuid.FromString (dashlessForm u.String) = some u ∧
      uuid.FromString (urnForm (dashlessForm u.String)) = some u := by
  refine ⟨⟨_, expandAccessPolicies_wellTyped x (fun v hv => (h v hv).1.1), ?_, ?_⟩, ?_, ?_, ?_⟩
  · rw [flattenAccessPolicies_some, List.map_map, List.map_map]
    apply List.map_congr_left
    intro v hv
    exact roundtrip_entry_parseable (h v hv).1 (h v hv).2
  · intro hc
    rw [flattenAccessPolicies_some, List.map_map, List.map_map]
    apply List.map_congr_left
    intro v hv
    exact roundtrip_entry_canonical (h v hv).1 (hc v hv)
  · intro s u hu
    exact ⟨canonicalUUIDString_of_some hu, uuid.String_canonical u,
      canonicalUUIDString_eq_self_iff hu⟩
  · intro s hs
    obtain ⟨u, hu, _⟩ := uuid.String_FromString_of_canonical hs
    rw [hu]
    rfl
  · intro u
    exact ⟨uuid.FromString_upperCaseForm u, uuid.FromString_bracedForm u,
      uuid.FromString_urnForm u, uuid.FromString_dashlessForm u,
      uuid.FromString_urnForm_dashlessForm u⟩

/-- Witness of the amended C1 on the entry of the concrete scenario, whose tenant
id is canonical, and on `bracedEntry`, whose tenant id is written between braces
and whose application id is written as a URN. -/
theorem roundtrip_canonicalizes_uuid_strings_witness :
    (∃ out, expandAccessPolicies [scenarioEntry, bracedEntry] = .ok out ∧
      (flattenAccessPolicies out).map Value.map =
        [scenarioEntry, bracedEntry].map Value.canonicalizeIds) ∧
    canonicalUUIDString "\x7b6ba7b810-9dad-11d1-80b4-00c04fd430c8\x7d" =
      "6ba7b810-9dad-11d1-80b4-00c04fd430c8" ∧
    canonicalUUIDString "urn:uuid:6ba7b810-9dad-11d1-80b4-00c04fd430c8" =
      "6ba7b810-9dad-11d1-80b4-00c04fd430c8" := by
  obtain ⟨⟨out, h1, h2, _⟩, h3, _⟩ :=
    roundtrip_canonicalizes_uuid_strings [scenarioEntry, bracedEntry] (by
      intro v hv
      simp only [List.mem_cons, List.mem_singleton, List.not_mem_nil, or_false] at hv
      rcases hv with rfl | rfl
      · exact ⟨rawEntry_exactEntry _ _ _ _ _ _ _, by decide⟩
      · exact ⟨rawEntry_exactEntry _ _ _ _ _ _ _, by decide⟩)
  exact ⟨⟨out, h1, h2⟩, by decide, by decide⟩


/-- C2: round trip with malformed UUIDs. For every structurally well-formed raw
entry, `flattenAccessPolicies (expandAccessPolicies [v])` is one entry; when the
`tenant_id` string is not parseable its `tenant_id` is the nil UUID's canonical
string, when a non-empty `application_id` string is not parseable its
`application_id` is that same string, and `object_id` and the four permission
lists are those of `v`. -/
theorem roundtrip_malformed_uuid_gives_nil_string (v : Value) (h : v.wellTypedEntry = true) :
    ∃ out r, expandAccessPolicies [v] = .ok out ∧ flattenAccessPolicies out = [r] ∧
      (∀ s, v.field "tenant_id" = Value.str s → uuid.FromString s = none →
        r "tenant_id" = some (Value.str "00000000-0000-0000-0000-000000000000")) ∧
      (∀ s, v.field "application_id" = Value.str s → s ≠ "" → uuid.FromString s = none →
        r "application_id" = some (Value.str "00000000-0000-0000-0000-000000000000")) ∧
      r "object_id" = v.lookup "object_id" ∧
      r "certificate_permissions" = v.lookup "certificate_permissions" ∧
      r "key_permissions" = v.lookup "key_permissions" ∧
      r "secret_permissions" = v.lookup "secret_permissions" ∧
      r "storage_permissions" = v.lookup "storage_permissions" := by
  have hx : ∀ w ∈ [v], w.wellTypedEntry = true := by simpa using h
  refine ⟨_, flattenAccessPolicy (typedOf v), expandAccessPolicies_wellTyped [v] hx, ?_, ?_, ?_,
    roundtrip_entry_lookup h⟩
  · simp [flattenAccessPolicies_some]
  · intro s hs hbad
    rw [(roundtrip_entry_ids h).1, hs, Value.getString, uuid.FromStringOrNil_of_none hbad,
      uuid.Nil_String]
  · intro s hs hne hbad
    rw [(roundtrip_entry_ids h).2, hs, Value.getString, if_neg hne,
      uuid.FromStringOrNil_of_none hbad, uuid.Nil_String]

/-- Witness of C2 at `garbledEntry`, whose `tenant_id` is `not-a-uuid`. -/
theorem roundtrip_malformed_uuid_gives_nil_string_witness :
    ∃ out r, expandAccessPolicies [garbledEntry] = .ok out ∧ flattenAccessPolicies out = [r] ∧
      r "tenant_id" = some (Value.str "00000000-0000-0000-0000-000000000000") ∧
      r "application_id" = some (Value.str "00000000-0000-0000-0000-000000000000") ∧
      r "object_id" = some (Value.str "") := by
  obtain ⟨out, r, h1, h2, h3, h4, h5, _⟩ :=
    roundtrip_malformed_uuid_gives_nil_string garbledEntry (by decide)
  exact ⟨out, r, h1, h2, h3 "not-a-uuid" (by rfl) (by decide),
    h4 "also-not-a-uuid" (by rfl) (by decide) (by decide), by rw [h5]; rfl⟩

/-- C3: order and duplicate preservation. For every structurally well-formed raw
list, the round trip has the length of the input, and its i-th entry carries the
`object_id` and the four permission lists of the i-th input entry, unchanged. -/
theorem roundtrip_preserves_order_and_duplicates (x : List Value)
    (h : ∀ v ∈ x, v.wellTypedEntry = true) :
    ∃ out, expandAccessPolicies x = .ok out ∧
      (flattenAccessPolicies out).length = x.length ∧
      ∀ (i : Nat) (v : Value) (r : RawMap), x[i]? = some v →
        (flattenAccessPolicies out)[i]? = some r →
          r "object_id" = v.lookup "object_id" ∧
          r "certificate_permissions" = v.lookup "certificate_permissions" ∧
          r "key_permissions" = v.lookup "key_permissions" ∧
          r "secret_permissions" = v.lookup "secret_permissions" ∧
          r "storage_permissions" = v.lookup "storage_permissions" := by
  refine ⟨_, expandAccessPolicies_wellTyped x h, ?_, ?_⟩
  · simp [flattenAccessPolicies_some]
  · intro i v r hv hr
    simp only [flattenAccessPolicies_some, List.getElem?_map, hv, Option.map_some',
      Option.some.injEq] at hr
    subst hr
    exact roundtrip_entry_lookup (h v (mem_of_getElem?_eq_some hv))

/-- Witness of C3: the key permissions `get, get, list` of `garbledEntry`, second
in a list of two, come back as they were. -/
theorem roundtrip_preserves_order_and_duplicates_witness :
    ∃ out r, expandAccessPolicies [scenarioEntry, garbledEntry] = .ok out ∧
      (flattenAccessPolicies out).length = 2 ∧
      (flattenAccessPolicies out)[1]? = some r ∧
      r "key_permissions" =
        some (Value.list [Value.str "get", Value.str "get", Value.str "list"]) := by
  obtain ⟨out, h1, h2, h3⟩ :=
    roundtrip_preserves_order_and_duplicates [scenarioEntry, garbledEntry] (by decide)
  have hlen : 1 < (flattenAccessPolicies out).length := by rw [h2]; decide
  refine ⟨out, (flattenAccessPolicies out)[1], h1, h2, List.getElem?_eq_getElem hlen, ?_⟩
  rw [(h3 1 garbledEntry _ rfl (List.getElem?_eq_getElem hlen)).2.2.1]
  rfl

/-- C4: decode totality. For every raw list whose entries are maps carrying the
fields with the right types, `expandAccessPolicies` returns a (non-nil) list
without failing, whatever the strings are, with one typed entry per raw entry. -/
theorem expandAccessPolicies_total (x : List Value) (h : ∀ v ∈ x, v.wellTypedEntry = true) :
    ∃ out, expandAccessPolicies x = .ok (some out) ∧ out.length = x.length :=
  ⟨x.map typedOf, expandAccessPolicies_wellTyped x h, by simp⟩

/-- Witness of C4 on a list of three entries, one of them garbled. -/
theorem expandAccessPolicies_total_witness :
    ∃ out, expandAccessPolicies [scenarioEntry, garbledEntry, applicationEntry] = .ok (some out) ∧
      out.length = 3 :=
  expandAccessPolicies_total [scenarioEntry, garbledEntry, applicationEntry] (by decide)

/-- C5: lenient tenant parsing. When the `tenant_id` string of a structurally
well-formed entry `v` is not a parseable UUID, decoding a list around `v` does
not fail, the typed entry of `v` has `TenantID` set to the nil UUID (16 zero
bytes), and the entries before and after `v` are decoded as they are without it. -/
theorem expandAccessPolicies_lenient_tenant (before after : List Value) (v : Value) (s : String)
    (hb : ∀ w ∈ before, w.wellTypedEntry = true) (ha : ∀ w ∈ after, w.wellTypedEntry = true)
    (hv : v.wellTypedEntry = true) (hs : v.field "tenant_id" = Value.str s)
    (hbad : uuid.FromString s = none) :
    ∃ outBefore e outAfter,
      expandAccessPolicies before = .ok (some outBefore) ∧
      expandAccessPolicies after = .ok (some outAfter) ∧
      expandAccessPolicies (before ++ v :: after) = .ok (some (outBefore ++ e :: outAfter)) ∧
      e.TenantID = some uuid.Nil ∧ uuid.Nil.bytes = List.replicate 16 0 := by
  have hall : ∀ w ∈ before ++ v :: after, w.wellTypedEntry = true := by
    intro w hw
    rcases List.mem_append.mp hw with hw | hw
    · exact hb w hw
    · rcases List.mem_cons.mp hw with rfl | hw
      · exact hv
      · exact ha w hw
  refine ⟨before.map typedOf, typedOf v, after.map typedOf,
    expandAccessPolicies_wellTyped before hb, expandAccessPolicies_wellTyped after ha, ?_, ?_, rfl⟩
  · rw [expandAccessPolicies_wellTyped _ hall]
    simp
  · simp [typedOf, hs, Value.getString, uuid.FromStringOrNil_of_none hbad]

/-- Witness of C5: `garbledEntry`, whose `tenant_id` is `not-a-uuid`, between two
other entries. -/
theorem expandAccessPolicies_lenient_tenant_witness :
    ∃ outBefore e outAfter,
      expandAccessPolicies [scenarioEntry] = .ok (some outBefore) ∧
      expandAccessPolicies [applicationEntry] = .ok (some outAfter) ∧
      expandAccessPolicies ([scenarioEntry] ++ garbledEntry :: [applicationEntry]) =
        .ok (some (outBefore ++ e :: outAfter)) ∧
      e.TenantID = some uuid.Nil ∧ uuid.Nil.bytes = List.replicate 16 0 :=
  expandAccessPolicies_lenient_tenant [scenarioEntry] [applicationEntry] garbledEntry "not-a-uuid"
    (by decide) (by decide) (by decide) (by rfl) (by decide)

/-- C6, as stated, fails: on `noApplicationEntry`, which has no `application_id`
key and five well-formed fields, `expandAccessPolicies` panics, while on the same
entry with `application_id = ""` it succeeds. -/
theorem absent_application_id_panics :
    noApplicationEntry.lookup "application_id" = none ∧
    noApplicationEntry.wellTypedOtherFields = true ∧
    expandAccessPolicies [noApplicationEntry] = .error Panic.interfaceConversion ∧
    expandAccessPolicies [noApplicationEntry.withField "application_id" (Value.str "")] =
      .ok (some [typedOf (noApplicationEntry.withField "application_id" (Value.str ""))]) ∧
    (typedOf (noApplicationEntry.withField "application_id" (Value.str ""))).ApplicationID
      = none := by
  refine ⟨rfl, by decide, ?_, ?_, by decide⟩
  · simp [expandAccessPolicies, expandAccessPoliciesLoop,
      expandAccessPolicy_absent_application_id (v := noApplicationEntry) (by decide) rfl]
  · exact expandAccessPolicies_wellTyped _ (by decide)

/-- C6, amended: an absent `application_id` does not behave like the empty string.
For every raw entry whose other five fields are well formed and which has no
`application_id` key, `expandAccessPolicies` fails on the string type assertion,
whereas on the same entry with `application_id = ""` it succeeds and yields a
typed entry with no `ApplicationID` set. -/
theorem absent_application_id_fails_empty_is_dropped (v : Value)
    (h : v.wellTypedOtherFields = true) (ha : v.lookup "application_id" = none) :
    expandAccessPolicies [v] = .error Panic.interfaceConversion ∧
    ∃ e, expandAccessPolicies [v.withField "application_id" (Value.str "")] = .ok (some [e]) ∧
      e.ApplicationID = none := by
  constructor
  · simp [expandAccessPolicies, expandAccessPoliciesLoop,
      expandAccessPolicy_absent_application_id h ha]
  · have hw := Value.wellTypedEntry_withField_application_id h ""
    refine ⟨typedOf (v.withField "application_id" (Value.str "")), ?_, ?_⟩
    · exact expandAccessPolicies_wellTyped _ (by simpa using hw.1)
    · simp [typedOf, hw.2]

/-- Witness of the amended C6 at `noApplicationEntry`. -/
theorem absent_application_id_fails_empty_is_dropped_witness :
    expandAccessPolicies [noApplicationEntry] = .error Panic.interfaceConversion ∧
    ∃ e, expandAccessPolicies [noApplicationEntry.withField "application_id" (Value.str "")] =
        .ok (some [e]) ∧ e.ApplicationID = none :=
  absent_application_id_fails_empty_is_dropped noApplicationEntry (by decide) rfl

/-- C7: an empty `application_id` is dropped. In the decoding of a structurally
well-formed raw list, every entry whose `application_id` is the empty string has
`ApplicationID` unset. -/
theorem expandAccessPolicies_empty_application_id (x : List Value)
    (h : ∀ v ∈ x, v.wellTypedEntry = true) :
    ∃ out, expandAccessPolicies x = .ok (some out) ∧ out.length = x.length ∧
      ∀ (i : Nat) (v : Value) (e : keyvault.AccessPolicyEntry), x[i]? = some v →
        out[i]? = some e → v.field "application_id" = Value.str "" →
          e.ApplicationID = none := by
  refine ⟨x.map typedOf, expandAccessPolicies_wellTyped x h, by simp, ?_⟩
  intro i v e hv he ha
  rw [getElem?_map_typedOf hv he]
  simp [typedOf, ha, Value.getString]

/-- Witness of C7 at `scenarioEntry`, whose `application_id` is empty. -/
theorem expandAccessPolicies_empty_application_id_witness :
    ∃ out e, expandAccessPolicies [scenarioEntry] = .ok (some out) ∧ out[0]? = some e ∧
      e.ApplicationID = none := by
  obtain ⟨out, h1, h2, h3⟩ := expandAccessPolicies_empty_application_id [scenarioEntry] (by decide)
  have hlen : 0 < out.length := by rw [h2]; decide
  exact ⟨out, out[0], h1, List.getElem?_eq_getElem hlen,
    h3 0 scenarioEntry _ rfl (List.getElem?_eq_getElem hlen) (by rfl)⟩

/-- C8: a non-empty `application_id` is always populated. In the decoding of a
structurally well-formed raw list, every entry whose `application_id` is a
non-empty string `s` has `ApplicationID` set: to the UUID parsed from `s` when
`s` parses, and to the nil UUID otherwise. -/
theorem expandAccessPolicies_nonempty_application_id (x : List Value)
    (h : ∀ v ∈ x, v.wellTypedEntry = true) :
    ∃ out, expandAccessPolicies x = .ok (some out) ∧ out.length = x.length ∧
      ∀ (i : Nat) (v : Value) (e : keyvault.AccessPolicyEntry) (s : String), x[i]? = some v →
        out[i]? = some e → v.field "application_id" = Value.str s → s ≠ "" →
          (∀ u, uuid.FromString s = some u → e.ApplicationID = some u) ∧
          (uuid.FromString s = none → e.ApplicationID = some uuid.Nil) := by
  refine ⟨x.map typedOf, expandAccessPolicies_wellTyped x h, by simp, ?_⟩
  intro i v e s hv he ha hne
  rw [getElem?_map_typedOf hv he]
  constructor
  · intro u hu
    simp [typedOf, ha, Value.getString, hne, uuid.FromStringOrNil_of_some hu]
  · intro hu
    simp [typedOf, ha, Value.getString, hne, uuid.FromStringOrNil_of_none hu]

/-- Witness of C8: the unparseable `application_id` of `garbledEntry` is decoded
to a populated nil UUID. -/
theorem expandAccessPolicies_nonempty_application_id_witness :
    ∃ out e, expandAccessPolicies [applicationEntry, garbledEntry] = .ok (some out) ∧
      out[1]? = some e ∧ e.ApplicationID = some uuid.Nil := by
  obtain ⟨out, h1, h2, h3⟩ :=
    expandAccessPolicies_nonempty_application_id [applicationEntry, garbledEntry] (by decide)
  have hlen : 1 < out.length := by rw [h2]; decide
  exact ⟨out, out[1], h1, List.getElem?_eq_getElem hlen,
    (h3 1 garbledEntry _ "also-not-a-uuid" rfl (List.getElem?_eq_getElem hlen) (by rfl)
      (by decide)).2 (by decide)⟩

/-- C9: validation is exactly case-insensitive membership in the closed
vocabulary. For a lower-casing of characters `toLower` that is the ASCII one on
ASCII characters: the element validator of each category's schema reports no
error for `t` if and only if `t` equals, ignoring letter case, a member of the
category's vocabulary; the vocabularies have 16, 16, 8 and 14 members; the key
validator accepts `Get` and `get` and rejects `frobnicate`; and two strings that
are equal ignoring case get the same verdict. -/
theorem validators_accept_iff_in_vocabulary_ignoring_case (toLower : Char → Char)
    (hascii : ∀ c : Char, c.toNat < 128 → toLower c = c.toLower) :
    (∀ (c : Category) (t k : String),
      c.accepts toLower t k = true ↔ ∃ w ∈ c.vocabulary, equalIgnoringCase toLower t w) ∧
    (Category.certificate.vocabulary.length = 16 ∧ Category.key.vocabulary.length = 16 ∧
      Category.secret.vocabulary.length = 8 ∧ Category.storage.vocabulary.length = 14) ∧
    (∀ k : String, Category.key.accepts toLower "Get" k = true ∧
      Category.key.accepts toLower "get" k = true ∧
      Category.key.accepts toLower "frobnicate" k = false) ∧
    (∀ (c : Category) (s t k : String), equalIgnoringCase toLower s t →
      c.accepts toLower s k = c.accepts toLower t k) := by
  have hiff : ∀ (c : Category) (t k : String),
      c.accepts toLower t k = true ↔ ∃ w ∈ c.vocabulary, equalIgnoringCase toLower t w := by
    intro c t k
    rw [Category.accepts_eq, validation.StringInSliceLoop_true_iff]
    simp only [strings.ToLower_eq_iff]
  have hconcrete : ∀ (t k : String), (∀ ch ∈ t.data, ch.toNat < 128) →
      Category.key.accepts toLower t k =
        validation.StringInSliceLoop Char.toLower true t Category.key.vocabulary := by
    intro t k ht
    rw [Category.accepts_eq]
    exact validation.StringInSliceLoop_congr true t _ (fun ch hch => hascii ch (ht ch hch))
      (fun w hw ch hch => hascii ch (Category.vocabulary_ascii _ w hw ch hch))
  refine ⟨hiff, ⟨rfl, rfl, rfl, rfl⟩, ?_, ?_⟩
  · intro k
    refine ⟨?_, ?_, ?_⟩
    · rw [hconcrete "Get" k (by decide)]; decide
    · rw [hconcrete "get" k (by decide)]; decide
    · rw [hconcrete "frobnicate" k (by decide)]; decide
  · intro c s t k hst
    rw [Bool.eq_iff_iff, hiff, hiff]
    have hlow := (strings.ToLower_eq_iff toLower s t).mpr hst
    simp only [← strings.ToLower_eq_iff, hlow]

/-- Witness of C9 with the ASCII lower-casing of characters: the storage validator
accepts `RegenerateKey`. -/
theorem validators_accept_iff_in_vocabulary_ignoring_case_witness :
    Category.storage.accepts Char.toLower "RegenerateKey" "storage_permissions.0" = true ∧
    Category.key.accepts Char.toLower "frobnicate" "key_permissions.0" = false :=
  ⟨((validators_accept_iff_in_vocabulary_ignoring_case Char.toLower (fun _ _ => rfl)).1
      Category.storage "RegenerateKey" "storage_permissions.0").mpr
      ⟨"regeneratekey", by decide, by
        rw [← strings.ToLower_eq_iff]; decide⟩,
    ((validators_accept_iff_in_vocabulary_ignoring_case Char.toLower (fun _ _ => rfl)).2.2.1
      "key_permissions.0").2.2⟩

/-- C10: decode carries tokens verbatim. In the decoding of a structurally
well-formed raw list, each of the four permission sets of the i-th typed entry is
populated, and the raw list of that field is exactly the list of its tokens: the
same length, the i-th token being the i-th raw string, with no vocabulary check
and no case change. -/
theorem expandAccessPolicies_tokens_verbatim (x : List Value)
    (h : ∀ v ∈ x, v.wellTypedEntry = true) :
    ∃ out, expandAccessPolicies x = .ok (some out) ∧ out.length = x.length ∧
      ∀ (i : Nat) (v : Value) (e : keyvault.AccessPolicyEntry), x[i]? = some v →
        out[i]? = some e →
          ∃ (p : keyvault.Permissions) (c k s st : List String),
            e.Permissions = some p ∧
            p.Certificates = some c ∧ p.Keys = some k ∧ p.Secrets = some s ∧
            p.Storage = some st ∧
            v.field "certificate_permissions" = Value.list (c.map Value.str) ∧
            v.field "key_permissions" = Value.list (k.map Value.str) ∧
            v.field "secret_permissions" = Value.list (s.map Value.str) ∧
            v.field "storage_permissions" = Value.list (st.map Value.str) := by
  refine ⟨x.map typedOf, expandAccessPolicies_wellTyped x h, by simp, ?_⟩
  intro i v e hv he
  rw [getElem?_map_typedOf hv he]
  obtain ⟨m, t, o, a, c, k, s, st, rfl, ht, ho, ha, hc, hk, hs, hst⟩ :=
    Value.fields_of_wellTypedEntry (h v (mem_of_getElem?_eq_some hv))
  refine ⟨{ Certificates := some c, Keys := some k, Secrets := some s, Storage := some st },
    c, k, s, st, ?_, rfl, rfl, rfl, rfl, ?_, ?_, ?_, ?_⟩
  · rw [typedOf_fields ht ho ha hc hk hs hst]
  · exact RawMap.index_of_eq_some hc
  · exact RawMap.index_of_eq_some hk
  · exact RawMap.index_of_eq_some hs
  · exact RawMap.index_of_eq_some hst

/-- Witness of C10: the secret permissions `Get, frobnicate` of `garbledEntry` are
decoded to the tokens `Get, frobnicate`. -/
theorem expandAccessPolicies_tokens_verbatim_witness :
    ∃ out e p, expandAccessPolicies [garbledEntry] = .ok (some out) ∧ out[0]? = some e ∧
      e.Permissions = some p ∧ p.Secrets = some ["Get", "frobnicate"] := by
  obtain ⟨out, h1, h2, h3⟩ := expandAccessPolicies_tokens_verbatim [garbledEntry] (by decide)
  have hlen : 0 < out.length := by rw [h2]; decide
  obtain ⟨p, c, k, s, st, hp, _, _, hs, _, _, _, hsl, _⟩ :=
    h3 0 garbledEntry _ rfl (List.getElem?_eq_getElem hlen)
  refine ⟨out, out[0], p, h1, List.getElem?_eq_getElem hlen, hp, ?_⟩
  have hraw : garbledEntry.field "secret_permissions" =
      Value.list (["Get", "frobnicate"].map Value.str) := by rfl
  rw [hraw] at hsl
  have := congrArg Value.getStrings hsl
  rw [Value.getStrings_list_str, Value.getStrings_list_str] at this
  rw [hs, ← this]

/-- C12: nil and empty lists. `expandAccessPolicies` of the empty raw list (a nil
slice ranges like an empty one) returns a non-nil pointer to an empty typed list,
and `flattenAccessPolicies` of a nil pointer and of an empty typed list both
return an empty raw list; neither fails. -/
theorem nil_and_empty_lists :
    expandAccessPolicies [] = .ok (some []) ∧
    flattenAccessPolicies none = [] ∧
    flattenAccessPolicies (some []) = [] :=
  ⟨rfl, rfl, rfl⟩

/-- C13: the presence of `application_id` in the encoding. In the encoding of a
typed list, the i-th raw map has the key `application_id` exactly when the i-th
entry has `ApplicationID` populated; its value is then the canonical string of
the UUID, of 36 characters (for a populated nil UUID the all-zero string), and it
is never the empty string. -/
theorem flatten_application_id_presence (p : List keyvault.AccessPolicyEntry) :
    (flattenAccessPolicies (some p)).length = p.length ∧
    ∀ (i : Nat) (e : keyvault.AccessPolicyEntry) (r : RawMap), p[i]? = some e →
      (flattenAccessPolicies (some p))[i]? = some r →
        (r "application_id").isSome = e.ApplicationID.isSome ∧
        (∀ u, e.ApplicationID = some u →
          r "application_id" = some (Value.str u.String) ∧ u.String.length = 36) ∧
        (e.ApplicationID = some uuid.Nil →
          r "application_id" = some (Value.str "00000000-0000-0000-0000-000000000000")) ∧
        r "application_id" ≠ some (Value.str "") := by
  refine ⟨by simp [flattenAccessPolicies_some], ?_⟩
  intro i e r he hr
  simp only [flattenAccessPolicies_some, List.getElem?_map, he, Option.map_some',
    Option.some.injEq] at hr
  subst hr
  have hk := (flattenAccessPolicy_keys e).2.2.1
  refine ⟨by rw [hk]; cases e.ApplicationID <;> rfl, ?_, ?_, ?_⟩
  · intro u hu
    rw [hk, hu]
    exact ⟨rfl, uuid.String_length u⟩
  · intro hu
    rw [hk, hu, Option.map_some', uuid.Nil_String]
  · rw [hk]
    cases hu : e.ApplicationID with
    | none => simp
    | some u =>
      simp only [Option.map_some', ne_eq, Option.some.injEq, Value.str.injEq]
      exact uuid.String_ne_empty u

/-- Witness of C13: `populatedPolicy` has a populated nil application id and
`sparsePolicy` has none. -/
theorem flatten_application_id_presence_witness :
    ∃ r q, flattenAccessPolicies (some [populatedPolicy, sparsePolicy]) = [r, q] ∧
      r "application_id" = some (Value.str "00000000-0000-0000-0000-000000000000") ∧
      (q "application_id").isSome = false := by
  have h := (flatten_application_id_presence [populatedPolicy, sparsePolicy]).2
  refine ⟨flattenAccessPolicy populatedPolicy, flattenAccessPolicy sparsePolicy, rfl, ?_, ?_⟩
  · exact (h 0 populatedPolicy _ rfl rfl).2.2.1 rfl
  · exact (h 1 sparsePolicy _ rfl rfl).1

/-- C14: mandatory identity fields. In the decoding of a structurally well-formed
raw list every typed entry has `TenantID`, `ObjectID`, `Permissions` and the four
permission sets populated, `ObjectID` being the raw `object_id` string verbatim;
every raw map of the round trip has the keys `tenant_id`, `object_id` and the
four permission keys; and, whatever the raw list, every entry of a successful
decoding has these fields populated. -/
theorem expand_populates_mandatory_fields (x : List Value)
    (h : ∀ v ∈ x, v.wellTypedEntry = true) :
    ∃ out, expandAccessPolicies x = .ok (some out) ∧ out.length = x.length ∧
      (∀ (i : Nat) (v : Value) (e : keyvault.AccessPolicyEntry), x[i]? = some v →
        out[i]? = some e →
          e.TenantID.isSome = true ∧ e.Permissions.isSome = true ∧
          (∀ c : Category, (permissionSet e c).isSome = true) ∧
          ∀ o : String, v.field "object_id" = Value.str o → e.ObjectID = some o) ∧
      (∀ r ∈ flattenAccessPolicies (some out),
        (r "tenant_id").isSome = true ∧ (r "object_id").isSome = true ∧
        ∀ c : Category, (r c.fieldName).isSome = true) ∧
      ∀ (y : List Value) (produced : List keyvault.AccessPolicyEntry),
        expandAccessPolicies y = .ok (some produced) → ∀ e ∈ produced,
          e.TenantID.isSome = true ∧ e.ObjectID.isSome = true ∧ e.Permissions.isSome = true ∧
          ∀ c : Category, (permissionSet e c).isSome = true := by
  refine ⟨x.map typedOf, expandAccessPolicies_wellTyped x h, by simp, ?_, ?_, ?_⟩
  · intro i v e hv he
    rw [getElem?_map_typedOf hv he]
    refine ⟨rfl, rfl, fun c => by rw [permissionSet_typedOf]; rfl, ?_⟩
    intro o ho
    simp [typedOf, ho, Value.getString]
  · intro r hr
    rw [flattenAccessPolicies_some, List.map_map] at hr
    obtain ⟨v, _, rfl⟩ := List.mem_map.mp hr
    obtain ⟨h1, h2, _, h4, h5, h6, h7⟩ := flattenAccessPolicy_keys (typedOf v)
    refine ⟨by rw [Function.comp_apply, h1]; rfl, by rw [Function.comp_apply, h2]; rfl, ?_⟩
    intro c
    cases c
    · rw [Function.comp_apply, Category.fieldName, h4]; rfl
    · rw [Function.comp_apply, Category.fieldName, h5]; rfl
    · rw [Function.comp_apply, Category.fieldName, h6]; rfl
    · rw [Function.comp_apply, Category.fieldName, h7]; rfl
  · intro y produced hy e he
    rw [(expandAccessPolicies_ok hy).2] at he
    obtain ⟨v, _, rfl⟩ := List.mem_map.mp he
    exact ⟨rfl, rfl, rfl, fun c => by rw [permissionSet_typedOf]; rfl⟩

/-- Witness of C14 at `garbledEntry`, whose `object_id` is the empty string. -/
theorem expand_populates_mandatory_fields_witness :
    ∃ out e, expandAccessPolicies [garbledEntry] = .ok (some out) ∧ out[0]? = some e ∧
      e.TenantID.isSome = true ∧ e.ObjectID = some "" := by
  obtain ⟨out, h1, h2, h3, _⟩ := expand_populates_mandatory_fields [garbledEntry] (by decide)
  have hlen : 0 < out.length := by rw [h2]; decide
  have he := h3 0 garbledEntry _ rfl (List.getElem?_eq_getElem hlen)
  exact ⟨out, out[0], h1, List.getElem?_eq_getElem hlen, he.1, he.2.2.2 "" (by rfl)⟩

/-- C15: entries are processed independently and in order. For structurally
well-formed raw lists `xs` and `ys`, decoding `xs ++ ys` gives the decoding of `xs`
followed by that of `ys`, and the i-th typed entry is the decoding of the i-th raw
entry alone; for typed lists `ps` and `qs`, encoding `ps ++ qs` gives the encoding
of `ps` followed by that of `qs`, and the i-th raw map is the encoding of the
i-th typed entry alone. -/
theorem expand_and_flatten_are_elementwise (xs ys : List Value)
    (ps qs : List keyvault.AccessPolicyEntry)
    (hx : ∀ v ∈ xs, v.wellTypedEntry = true) (hy : ∀ v ∈ ys, v.wellTypedEntry = true) :
    (∃ a b, expandAccessPolicies xs = .ok (some a) ∧ expandAccessPolicies ys = .ok (some b) ∧
      expandAccessPolicies (xs ++ ys) = .ok (some (a ++ b)) ∧
      ∀ (i : Nat) (v : Value), xs[i]? = some v →
        ∃ e, a[i]? = some e ∧ expandAccessPolicies [v] = .ok (some [e])) ∧
    flattenAccessPolicies (some (ps ++ qs)) =
      flattenAccessPolicies (some ps) ++ flattenAccessPolicies (some qs) ∧
    ∀ (i : Nat) (e : keyvault.AccessPolicyEntry), ps[i]? = some e →
      ∃ r, (flattenAccessPolicies (some ps))[i]? = some r ∧
        flattenAccessPolicies (some [e]) = [r] := by
  have hxy : ∀ v ∈ xs ++ ys, v.wellTypedEntry = true := by
    intro v hv
    rcases List.mem_append.mp hv with hv | hv
    · exact hx v hv
    · exact hy v hv
  refine ⟨⟨xs.map typedOf, ys.map typedOf, expandAccessPolicies_wellTyped xs hx,
    expandAccessPolicies_wellTyped ys hy, ?_, ?_⟩, ?_, ?_⟩
  · rw [expandAccessPolicies_wellTyped _ hxy, List.map_append]
  · intro i v hv
    refine ⟨typedOf v, by simp [List.getElem?_map, hv], ?_⟩
    exact expandAccessPolicies_wellTyped [v]
      (by simpa using hx v (mem_of_getElem?_eq_some hv))
  · simp only [flattenAccessPolicies_some, List.map_append]
  · intro i e he
    exact ⟨flattenAccessPolicy e, by simp [flattenAccessPolicies_some, List.getElem?_map, he],
      by simp [flattenAccessPolicies_some]⟩

/-- Witness of C15 on two raw lists and two typed lists. -/
theorem expand_and_flatten_are_elementwise_witness :
    (∃ a b, expandAccessPolicies [scenarioEntry, garbledEntry] = .ok (some a) ∧
      expandAccessPolicies [applicationEntry] = .ok (some b) ∧
      expandAccessPolicies ([scenarioEntry, garbledEntry] ++ [applicationEntry]) =
        .ok (some (a ++ b))) ∧
    flattenAccessPolicies (some ([populatedPolicy] ++ [sparsePolicy, emptyPolicy])) =
      flattenAccessPolicies (some [populatedPolicy]) ++
        flattenAccessPolicies (some [sparsePolicy, emptyPolicy]) := by
  obtain ⟨⟨a, b, h1, h2, h3, _⟩, h4, _⟩ :=
    expand_and_flatten_are_elementwise [scenarioEntry, garbledEntry] [applicationEntry]
      [populatedPolicy] [sparsePolicy, emptyPolicy] (by decide) (by decide)
  exact ⟨⟨a, b, h1, h2, h3⟩, h4⟩

/-- C16: the reverse round trip on fully populated entries. For every typed list
whose entries have `TenantID`, `ObjectID`, `ApplicationID`, `Permissions` and the
four permission sets populated, decoding its encoding succeeds and gives the
list back; parsing the canonical string of a UUID gives the UUID back. -/
theorem expand_flatten_fully_populated (p : List keyvault.AccessPolicyEntry)
    (h : ∀ e ∈ p, fullyPopulated e = true) :
    expandAccessPolicies ((flattenAccessPolicies (some p)).map Value.map) = .ok (some p) ∧
    ∀ u : uuid.UUID, uuid.FromStringOrNil u.String = u :=
  ⟨expandAccessPolicies_flattenAccessPolicies p h,
    fun u => uuid.FromStringOrNil_of_some (uuid.FromString_String u)⟩

/-- Witness of C16 at `populatedPolicy`, whose application id is a populated nil
UUID. -/
theorem expand_flatten_fully_populated_witness :
    expandAccessPolicies ((flattenAccessPolicies (some [populatedPolicy])).map Value.map) =
      .ok (some [populatedPolicy]) :=
  (expand_flatten_fully_populated [populatedPolicy] (by decide)).1

/-- C17: the round trip is stable on its own output. For every structurally
well-formed raw list in which every `application_id` is a non-empty string, with
`y` the round trip of the list, decoding `y` succeeds and encoding the result
gives `y` again. -/
theorem roundtrip_is_stable (x : List Value) (h : ∀ v ∈ x, v.wellTypedEntry = true)
    (hne : ∀ v ∈ x, (v.field "application_id").getString ≠ "") :
    ∃ out y, expandAccessPolicies x = .ok out ∧ flattenAccessPolicies out = y ∧
      ∃ out2, expandAccessPolicies (y.map Value.map) = .ok out2 ∧
        flattenAccessPolicies out2 = y := by
  refine ⟨some (x.map typedOf), flattenAccessPolicies (some (x.map typedOf)),
    expandAccessPolicies_wellTyped x h, rfl, some (x.map typedOf), ?_, rfl⟩
  apply expandAccessPolicies_flattenAccessPolicies
  intro e he
  obtain ⟨v, hv, rfl⟩ := List.mem_map.mp he
  exact fullyPopulated_typedOf (hne v hv)

/-- Witness of C17 on `garbledEntry`, whose UUID strings are malformed, and
`applicationEntry`. -/
theorem roundtrip_is_stable_witness :
    ∃ out y, expandAccessPolicies [garbledEntry, applicationEntry] = .ok out ∧
      flattenAccessPolicies out = y ∧
      ∃ out2, expandAccessPolicies (y.map Value.map) = .ok out2 ∧
        flattenAccessPolicies out2 = y :=
  roundtrip_is_stable [garbledEntry, applicationEntry] (by decide) (by decide)

/-- C18: encoding is total and mirrors field presence. For every typed list the
encoding has one raw map per entry; in the i-th map `tenant_id` and `object_id`
are present exactly when `TenantID` and `ObjectID` are set, the four permission
keys are all absent when `Permissions` is unset and all present when it is set,
each holding the tokens of its set in order, an unset set giving the empty list. -/
theorem flatten_mirrors_field_presence (p : List keyvault.AccessPolicyEntry) :
    (flattenAccessPolicies (some p)).length = p.length ∧
    ∀ (i : Nat) (e : keyvault.AccessPolicyEntry) (r : RawMap), p[i]? = some e →
      (flattenAccessPolicies (some p))[i]? = some r →
        (r "tenant_id").isSome = e.TenantID.isSome ∧
        (r "object_id").isSome = e.ObjectID.isSome ∧
        (e.Permissions = none → ∀ c : Category, r c.fieldName = none) ∧
        (e.Permissions.isSome = true → ∀ c : Category,
          r c.fieldName = some (Value.list ((typedTokens e c).map Value.str)) ∧
          (permissionSet e c = none → r c.fieldName = some (Value.list []))) := by
  refine ⟨by simp [flattenAccessPolicies_some], ?_⟩
  intro i e r he hr
  simp only [flattenAccessPolicies_some, List.getElem?_map, he, Option.map_some',
    Option.some.injEq] at hr
  subst hr
  obtain ⟨h1, h2, _, h4, h5, h6, h7⟩ := flattenAccessPolicy_keys e
  refine ⟨by rw [h1]; cases e.TenantID <;> rfl, by rw [h2]; cases e.ObjectID <;> rfl, ?_, ?_⟩
  · intro hp c
    cases c <;> simp [Category.fieldName, h4, h5, h6, h7, hp]
  · intro hp c
    obtain ⟨t, o, a, perms⟩ := e
    cases perms with
    | none => simp at hp
    | some perms =>
      obtain ⟨k, s, ce, st⟩ := perms
      cases c
      · cases ce <;>
          simp [Category.fieldName, h4, typedTokens, permissionSet,
            flattenCertificatePermissions, flattenPermissionsLoop_eq]
      · cases k <;>
          simp [Category.fieldName, h5, typedTokens, permissionSet,
            flattenKeyPermissions, flattenPermissionsLoop_eq]
      · cases s <;>
          simp [Category.fieldName, h6, typedTokens, permissionSet,
            flattenSecretPermissions, flattenPermissionsLoop_eq]
      · cases st <;>
          simp [Category.fieldName, h7, typedTokens, permissionSet,
            flattenStoragePermissions, flattenPermissionsLoop_eq]

/-- Witness of C18: `sparsePolicy` has `Permissions` set with only the key
permissions, and no `TenantID`. -/
theorem flatten_mirrors_field_presence_witness :
    ∃ r, flattenAccessPolicies (some [emptyPolicy, sparsePolicy]) =
        [flattenAccessPolicy emptyPolicy, r] ∧
      (r "tenant_id").isSome = false ∧ (r "object_id").isSome = true ∧
      r "key_permissions" = some (Value.list [Value.str "get"]) ∧
      r "certificate_permissions" = some (Value.list []) := by
  have h := (flatten_mirrors_field_presence [emptyPolicy, sparsePolicy]).2 1 sparsePolicy
    (flattenAccessPolicy sparsePolicy) rfl rfl
  exact ⟨flattenAccessPolicy sparsePolicy, rfl, h.1, h.2.1,
    (h.2.2.2 rfl Category.key).1, (h.2.2.2 rfl Category.certificate).2 rfl⟩
